import Mathlib

/-!
Verification of the citation-extraction core of `src/app.py`.

Strings are modelled as `List Char` (`Str`).  Each Python regular expression
used by the core is embedded as a deterministic character-level scanner; at
every point where the Python regex engine could backtrack we argue (in a
comment at the definition) why the greedy-deterministic scanner computes the
same match, so the scanner is a faithful embedding of `re`'s behaviour on
these patterns.  The modelled alphabet is the ASCII range plus the en dash
(the only non-ASCII character the code mentions); Python's Unicode whitespace
and Unicode digits beyond that range are outside the model.

Fallible code is embedded in `Except Unit`: the one statement of the core
that can raise (the two-variable unpacking `a,b = re.split(...)` in
`extract_ieee`, line 70 of app.py, which is outside the `try`) is the one
`.error` producer.
-/

namespace CitEx

/-- Strings of the embedded program. -/
abbrev Str := List Char

/-- Python whitespace (`str.strip()` with no argument, and `\s` in its
regexes), restricted to the ASCII range: space, tab, newline, carriage
return, vertical tab, form feed. -/
def pyWs (c : Char) : Bool :=
  c == ' ' || c == '\t' || c == '\n' || c == '\r' ||
  c == Char.ofNat 11 || c == Char.ofNat 12

/-- ASCII digit (`\d` in the regexes, `str.isdigit` on the ASCII range). -/
def isDig (c : Char) : Bool :=
  decide ('0' ≤ c) && decide (c ≤ '9')

/-- `[A-Z]`. -/
def isUpperAZ (c : Char) : Bool :=
  decide ('A' ≤ c) && decide (c ≤ 'Z')

/-- `[a-z]`. -/
def isLowerAZ (c : Char) : Bool :=
  decide ('a' ≤ c) && decide (c ≤ 'z')

/-- The character class `[A-Za-z'\-]` of `RE_NAME` (app.py line 25). -/
def isNameChar (c : Char) : Bool :=
  isUpperAZ c || isLowerAZ c || c == '\'' || c == '-'

/-- `p` or `P`: the class matched by `p+p?` under `re.I` (app.py line 43). -/
def isP (c : Char) : Bool := c == 'p' || c == 'P'

/-- ASCII lowering, for the case-insensitive connector-phrase match. -/
def lowerAZ (c : Char) : Char :=
  if isUpperAZ c then Char.ofNat (c.toNat + 32) else c

/-- `str.strip(chars)` / `str.strip()`: drop characters satisfying `p` from
both ends. -/
def stripBy (p : Char → Bool) (l : Str) : Str :=
  ((l.dropWhile p).reverse.dropWhile p).reverse

/-- `s.strip()` (whitespace strip). -/
def pyStrip (l : Str) : Str := stripBy pyWs l

/-- `s.strip(" .;,")` (app.py line 31). -/
def stripDotPunct (l : Str) : Str :=
  stripBy (fun c => c == ' ' || c == '.' || c == ';' || c == ',') l

/-- `s.strip(" ,;")` (app.py line 49). -/
def stripCommaPunct (l : Str) : Str :=
  stripBy (fun c => c == ' ' || c == ',' || c == ';') l

/-- Split on a single literal character (`re.split(r";")` on line 39 and the
comma part of the splits in `extract_ieee`).  Like Python, `n` separators
yield `n+1` pieces, empties included. -/
def splitOnChar (sep : Char) : Str → List Str
  | [] => [[]]
  | c :: r =>
    if c == sep then [] :: splitOnChar sep r
    else
      match splitOnChar sep r with
      | [] => [[c]]
      | p :: ps => (c :: p) :: ps

/-- Split on the character class `[\-–]` (app.py line 70): a piece boundary at
every hyphen or en dash. -/
def isHyph (c : Char) : Bool := c == '-' || c == Char.ofNat 0x2013

def splitOnHyph : Str → List Str
  | [] => [[]]
  | c :: r =>
    if isHyph c then [] :: splitOnHyph r
    else
      match splitOnHyph r with
      | [] => [[c]]
      | p :: ps => (c :: p) :: ps

/-- Does `(?:19|20)\d{2}` match starting exactly here?  (`re.search` of
`RE_YEAR` only needs this: the trailing `[a-z]?` of `RE_YEAR` is optional, so
it never affects whether a search succeeds.) -/
def yearStart : Str → Bool
  | '1' :: '9' :: c3 :: c4 :: _ => isDig c3 && isDig c4
  | '2' :: '0' :: c3 :: c4 :: _ => isDig c3 && isDig c4
  | _ => false

/-- `re.search(RE_YEAR, s) is not None` (app.py lines 37 and 41). -/
def containsYear : Str → Bool
  | [] => false
  | c :: r => yearStart (c :: r) || containsYear r

/-- The year token `(?:19|20)\d{2}[a-z]?` matched at the head of `l`:
`some (token, rest)` on success.  The optional `[a-z]` is taken greedily;
dropping it can never rescue a failing continuation, because the continuation
then faces that same lowercase letter where `\s*`, `$`, `.` before `$`, or
`\)` is required. -/
def yearTokAt (l : Str) : Option (Str × Str) :=
  match l with
  | c1 :: c2 :: c3 :: c4 :: r =>
    if ((c1 == '1' && c2 == '9') || (c1 == '2' && c2 == '0')) &&
        isDig c3 && isDig c4 then
      match r with
      | c5 :: r2 =>
        if isLowerAZ c5 then some ([c1, c2, c3, c4, c5], r2)
        else some ([c1, c2, c3, c4], r)
      | [] => some ([c1, c2, c3, c4], [])
    else none
  | _ => none

/-!
### The parenthetical matcher, app.py line 37

`re.finditer(r"\(([^()]*?(?:19|20)\d{2}[^()]*)\)", text)`: a match starts at
a `(`, the captured group runs to the next parenthesis character, which must
be `)` (the greedy `[^()]*` cannot cross a parenthesis, so the closing `\)`
is forced to the first one), and the group must contain a year.  The lazy
`[^()]*?` only moves where the year is matched inside the group, never the
group's extent.  Matches never overlap (a group contains no `(`), so the
scan below — open at `(`, restart at a nested `(`, emit at `)` when a year
is present — produces exactly `finditer`'s groups in order. -/
def parenGo : Option Str → Str → List Str
  | _, [] => []
  | none, c :: r =>
    if c == '(' then parenGo (some []) r else parenGo none r
  | some acc, c :: r =>
    if c == '(' then parenGo (some []) r
    else if c == ')' then
      (if containsYear acc.reverse then [acc.reverse] else []) ++ parenGo none r
    else parenGo (some (c :: acc)) r

/-- The group of every parenthetical match, in order. -/
def parenInsides (text : Str) : List Str := parenGo none text

/-!
### `_clean_piece`, app.py lines 27–32
-/

/-- Is `pat` a prefix of `l`? -/
def startsWith : Str → Str → Bool
  | [], _ => true
  | _ :: _, [] => false
  | a :: as_, b :: bs => a == b && startsWith as_ bs

/-- The connector-phrase removal
`re.sub(r"^(?:see|e\.g\.|cf\.|e\.g|i\.e\.,?|for example|see also)\s*[:,]?\s*", "", s, flags=re.I)`
(app.py line 30).  `^` anchors the single possible match at the start; the
alternatives are tried in order and the first that fits wins (the rest of the
pattern, `\s*[:,]?\s*`, always succeeds, so no backtracking into a later
alternative can occur — in particular `see also` is shadowed by `see`).
`i\.e\.,?` is one alternative with a greedy optional comma, written out as its
two cases in order. -/
def connectorDrop (l : Str) : Str :=
  let low := l.map lowerAZ
  let k : Option Nat :=
    if startsWith ['s', 'e', 'e'] low then some 3
    else if startsWith ['e', '.', 'g', '.'] low then some 4
    else if startsWith ['c', 'f', '.'] low then some 3
    else if startsWith ['e', '.', 'g'] low then some 3
    else if startsWith ['i', '.', 'e', '.', ','] low then some 5
    else if startsWith ['i', '.', 'e', '.'] low then some 4
    else if startsWith
        ['f', 'o', 'r', ' ', 'e', 'x', 'a', 'm', 'p', 'l', 'e'] low then some 11
    else if startsWith
        ['s', 'e', 'e', ' ', 'a', 'l', 's', 'o'] low then some 8
    else none
  match k with
  | none => l
  | some n =>
    let r := (l.drop n).dropWhile pyWs
    let r :=
      match r with
      | c :: t => if c == ':' || c == ',' then t else r
      | [] => r
    r.dropWhile pyWs

/-- `_clean_piece` (app.py lines 27–32): whitespace strip, connector
removal, strip of `" .;,"`. -/
def _clean_piece (s : Str) : Str :=
  stripDotPunct (connectorDrop (pyStrip s))

/-!
### The page-reference removal, app.py line 43

`re.sub(r",?\s*p+p?\.?\s*\d+(\-\d+)?", "", piece, flags=re.I)`.  Every
quantifier here is deterministic: if the greedy `,?` takes a comma and the
rest fails, the rest also fails without it (`\s*` then `p+` both reject a
comma); `p+p?` is just a maximal run of `p`/`P`; if `\.?` takes a dot and
`\s*\d+` then fails, it fails without the dot too (a dot is neither
whitespace nor a digit); `(\-\d+)?` participates only when a digit follows
the hyphen.  `re.sub` removes every non-overlapping match, scanning left to
right. -/
def pageTry (l : Str) : Option Str :=
  let l1 := match l with | ',' :: t => t | _ => l
  let l2 := l1.dropWhile pyWs
  if (l2.takeWhile isP).isEmpty then none
  else
    let l3 := l2.dropWhile isP
    let l4 := match l3 with | '.' :: t => t | _ => l3
    let l5 := l4.dropWhile pyWs
    if (l5.takeWhile isDig).isEmpty then none
    else
      let l6 := l5.dropWhile isDig
      match l6 with
      | '-' :: t =>
        if (t.takeWhile isDig).isEmpty then some l6
        else some (t.dropWhile isDig)
      | _ => some l6

/-- The scan of the page-reference removal.  Fuel is one per examined
position; a match always consumes at least one character, so
`length + 1` fuel (supplied by `pageSub`) is never exhausted. -/
def pageSubGo : Nat → Str → Str
  | 0, l => l
  | _ + 1, [] => []
  | f + 1, c :: r =>
    match pageTry (c :: r) with
    | some rest => pageSubGo f rest
    | none => c :: pageSubGo f r

def pageSub (l : Str) : Str := pageSubGo (l.length + 1) l

/-!
### The truncation after the year, app.py line 45

`re.sub(rf"({RE_YEAR}).*$", r"\1", piece)`.  `.` does not match a newline and
`$` (without `re.M`) matches only at the end or just before a final newline,
so the pattern matches at a position exactly when the year token matches
there and everything after the token contains no newline, except possibly a
single final one (which `$` then precedes and the match leaves in place).
The replacement keeps only the captured year token.  After one replacement
the remainder is empty or a lone newline, which contains no year, so the
continued `re.sub` scan changes nothing further. -/
def tailNoNl (rest : Str) : Bool :=
  match rest.dropWhile (fun c => !(c == '\n')) with
  | [] => true
  | ['\n'] => true
  | _ => false

def truncGo : Str → Str
  | [] => []
  | c :: r =>
    match yearTokAt (c :: r) with
    | some (tok, rest) =>
      if tailNoNl rest then
        tok ++ rest.dropWhile (fun c => !(c == '\n'))
      else c :: truncGo r
    | none => c :: truncGo r

/-!
### The `and` normalization, app.py lines 47 and 59

`re.sub(r"\s+and\s+", " & ", s)` (no flags: case sensitive).  Both `\s+` are
deterministic maximal runs: shortening the leading run leaves a whitespace
character where the literal `a` is required, shortening the trailing run
leaves one where the pattern must end with the scan resuming there — `re.sub`
resumes after the full greedy match. -/
def andTry (l : Str) : Option Str :=
  if (l.takeWhile pyWs).isEmpty then none
  else
    match l.dropWhile pyWs with
    | 'a' :: 'n' :: 'd' :: r2 =>
      if (r2.takeWhile pyWs).isEmpty then none
      else some (r2.dropWhile pyWs)
    | _ => none

/-- A match consumes at least five characters, so `length + 1` fuel is never
exhausted. -/
def andGo : Nat → Str → Str
  | 0, l => l
  | _ + 1, [] => []
  | f + 1, c :: r =>
    match andTry (c :: r) with
    | some rest => ' ' :: '&' :: ' ' :: andGo f rest
    | none => c :: andGo f r

def andSub (l : Str) : Str := andGo (l.length + 1) l

/-!
### The whitespace collapse, app.py line 49

`re.sub(r"\s{2,}", " ", s)`: every maximal whitespace run of length at least
two becomes one space. -/
def collGo : Nat → Str → Str
  | 0, l => l
  | _ + 1, [] => []
  | f + 1, c :: r =>
    if pyWs c && !(r.takeWhile pyWs).isEmpty then
      ' ' :: collGo f (r.dropWhile pyWs)
    else c :: collGo f r

def collapseWs (l : Str) : Str := collGo (l.length + 1) l

/-- The per-piece pipeline of `extract_apa_parenthetical` (app.py lines
40–50): clean, keep only pieces still containing a year, remove page
references, truncate after the year, normalize `and`, collapse whitespace,
strip `" ,;"`. -/
def parenPiece (part : Str) : Option Str :=
  let piece := _clean_piece part
  if containsYear piece then
    some (stripCommaPunct (collapseWs (andSub (truncGo (pageSub piece)))))
  else none

/-- `extract_apa_parenthetical` (app.py lines 34–51). -/
def extract_apa_parenthetical (text : Str) : List Str :=
  (parenInsides text).flatMap fun inside =>
    (splitOnChar ';' inside).filterMap parenPiece

/-!
### The narrative matcher, app.py line 56

`re.finditer(rf"((?:{RE_NAME}(?:\s*&\s*{RE_NAME})?|{RE_NAME}\s+et al\.))\s*\(\s*({RE_YEAR})\s*\)", text)`.

The scanner below is deterministic and needs no backtracking lists:
a `RE_NAME` run is maximal (a shortened run leaves a name character where
`\s*&`, `\s*\(` or `\s+` must continue, and a name character is neither
whitespace, `&`, `(` nor can start `et al.` after required whitespace);
every `\s*`/`\s+` run is maximal (the character after it is never
whitespace); the `&` group and the two alternatives are tried in the
pattern's order. -/
def nameRun (l : Str) : Option (Str × Str) :=
  match l with
  | c :: r =>
    if isUpperAZ c then
      if (r.takeWhile isNameChar).isEmpty then none
      else some (c :: r.takeWhile isNameChar, r.dropWhile isNameChar)
    else none
  | [] => none

/-- `\s*\(\s*({RE_YEAR})\s*\)`: the year-in-parentheses tail, returning the
captured year and the rest after the closing parenthesis. -/
def parenYear (l : Str) : Option (Str × Str) :=
  match l.dropWhile pyWs with
  | '(' :: r =>
    match yearTokAt (r.dropWhile pyWs) with
    | some (tok, r2) =>
      match r2.dropWhile pyWs with
      | ')' :: rest => some (tok, rest)
      | _ => none
    | none => none
  | _ => none

/-- The `(?:\s*&\s*{RE_NAME})?` group taken (tried first, being greedy),
followed by the year tail. -/
def tryNarrAmp (n1 r1 : Str) : Option (Str × Str × Str) :=
  match r1.dropWhile pyWs with
  | '&' :: r2 =>
    match nameRun (r2.dropWhile pyWs) with
    | some (n2, r3) =>
      match parenYear r3 with
      | some (y, rest) =>
        some (n1 ++ r1.takeWhile pyWs ++
          '&' :: (r2.takeWhile pyWs ++ n2), y, rest)
      | none => none
    | none => none
  | _ => none

/-- The second alternative `{RE_NAME}\s+et al\.` followed by the year tail
(the literal has exactly one space between `et` and `al.`). -/
def tryNarrEtal (n1 r1 : Str) : Option (Str × Str × Str) :=
  if (r1.takeWhile pyWs).isEmpty then none
  else
    match r1.dropWhile pyWs with
    | 'e' :: 't' :: ' ' :: 'a' :: 'l' :: '.' :: r2 =>
      match parenYear r2 with
      | some (y, rest) =>
        some (n1 ++ r1.takeWhile pyWs ++
          ['e', 't', ' ', 'a', 'l', '.'], y, rest)
      | none => none
    | _ => none

/-- The attempts after the first name, in the regex's order: the `&` group
first (greedy), then the bare name, then the `et al.` alternative. -/
def tryNarrTail (n1 r1 : Str) : Option (Str × Str × Str) :=
  match tryNarrAmp n1 r1 with
  | some z => some z
  | none =>
    match parenYear r1 with
    | some (y, rest) => some (n1, y, rest)
    | none => tryNarrEtal n1 r1

/-- One match attempt at the current position: `some (name, year, rest)`. -/
def tryNarr (l : Str) : Option (Str × Str × Str) :=
  match nameRun l with
  | none => none
  | some (n1, r1) => tryNarrTail n1 r1

/-- The `finditer` scan: attempt at every position, resume after a match.
Every match consumes at least one character, so `length + 1` fuel (supplied
by `narrativeMatches`) is never exhausted. -/
def narrGo : Nat → Str → List (Str × Str)
  | 0, _ => []
  | _ + 1, [] => []
  | f + 1, c :: r =>
    match tryNarr (c :: r) with
    | some (n, y, rest) => (n, y) :: narrGo f rest
    | none => narrGo f r

def narrativeMatches (text : Str) : List (Str × Str) :=
  narrGo (text.length + 1) text

/-- `extract_apa_narrative` (app.py lines 53–61): for each match, normalize
`and` in the captured name and emit `f"{name}, {year}"`. -/
def extract_apa_narrative (text : Str) : List Str :=
  (narrativeMatches text).map fun p => andSub p.1 ++ ',' :: ' ' :: p.2

/-!
### The IEEE matcher, app.py lines 63–80

`re.finditer(r"\[(\d+(?:\s*[\-,–]\s*\d+|\s*,\s*\d+)*)\]", text)`.  The second
alternative of the starred group, `\s*,\s*\d+`, is subsumed by the first
(`,` is in the class `[\-,–]`), so one iteration is `\s*[\-,–]\s*\d+`.  The
star is greedy and deterministic: an iteration never begins with `]`, and
after the maximal number of iterations the next character is a digit-free
non-separator, so dropping iterations can never make the closing `\]`
match.  Digit runs are maximal for the same reason. -/
def sepChar (c : Char) : Bool := c == '-' || c == ',' || c == Char.ofNat 0x2013

/-- The starred iterations, returning (consumed characters, rest).  An
iteration consumes at least two characters, so `length + 1` fuel (supplied by
`tryIeee`) is never exhausted. -/
def blobIters : Nat → Str → Str × Str
  | 0, l => ([], l)
  | f + 1, l =>
    match l.dropWhile pyWs with
    | c :: r2 =>
      if sepChar c then
        let r3 := r2.dropWhile pyWs
        if (r3.takeWhile isDig).isEmpty then ([], l)
        else
          let res := blobIters f (r3.dropWhile isDig)
          (l.takeWhile pyWs ++ c ::
            (r2.takeWhile pyWs ++ (r3.takeWhile isDig ++ res.1)), res.2)
      else ([], l)
    | [] => ([], l)

/-- A match attempt at a position: `some (group, rest)` when the position
starts `[`, a digit-led comma/range list follows, and the group closes with
`]`. -/
def tryIeee (l : Str) : Option (Str × Str) :=
  match l with
  | '[' :: r =>
    if (r.takeWhile isDig).isEmpty then none
    else
      match blobIters (r.length + 1) (r.dropWhile isDig) with
      | (its, ']' :: after) => some (r.takeWhile isDig ++ its, after)
      | _ => none
  | _ => none

/-- The `finditer` scan for bracket groups.  A match consumes at least three
characters, so `length + 1` fuel (supplied by `ieeeBlobs`) is never
exhausted. -/
def ieeeGo : Nat → Str → List Str
  | 0, _ => []
  | _ + 1, [] => []
  | f + 1, c :: r =>
    match tryIeee (c :: r) with
    | some (blob, after) => blob :: ieeeGo f after
    | none => ieeeGo f r

def ieeeBlobs (text : Str) : List Str := ieeeGo (text.length + 1) text

/-- `re.split(r"\s*,\s*", blob)` (app.py line 67).  The pattern must contain
the comma and greedily absorbs the whitespace around it, so it is the plain
comma split with whitespace trimmed from the right of every piece before a
comma and from the left of every piece after one (the first piece keeps its
leading, the last its trailing whitespace). -/
def dropLeadWs (l : Str) : Str := l.dropWhile pyWs

def dropTrailWs (l : Str) : Str := (l.reverse.dropWhile pyWs).reverse

def commaMid : List Str → List Str
  | [] => []
  | [q] => [dropLeadWs q]
  | q :: qs => dropLeadWs (dropTrailWs q) :: commaMid qs

def pyCommaSplit (blob : Str) : List Str :=
  match splitOnChar ',' blob with
  | [] => []
  | [p] => [p]
  | p :: ps => dropTrailWs p :: commaMid ps

/-- `int(s)` on an already-stripped token.  In every string this program
feeds it, the token is a run of ASCII digits (no sign, no underscores), so
the model parses exactly those; anything else is `none` (a `ValueError`,
which the bare `except` catches). -/
def digitsVal (s : Str) : Nat :=
  s.foldl (fun a c => a * 10 + (c.toNat - 48)) 0

def pyInt (s : Str) : Option Nat :=
  if s ≠ [] ∧ s.all isDig then some (digitsVal s) else none

/-- `str(n)` for a natural number. -/
def natToStrGo : Nat → Nat → Str → Str
  | 0, _, acc => acc
  | f + 1, n, acc =>
    if n == 0 then acc
    else natToStrGo f (n / 10) (Char.ofNat (48 + n % 10) :: acc)

def natToStr (n : Nat) : Str :=
  if n == 0 then ['0'] else natToStrGo (n + 1) n []

/-- `[str(x) for x in range(a, b+1)]` for `a ≤ b`. -/
def rangeToks (a b : Nat) : List Str :=
  (List.range (b + 1 - a)).map fun i => natToStr (a + i)

/-- The `try` body for a range part (app.py lines 71–76): parse both sides,
expand the inclusive range when `a <= b`; a failed parse or a reversed range
contributes nothing (the bare `except: continue`). -/
def processRange (a b : Str) : List Str :=
  match pyInt (pyStrip a), pyInt (pyStrip b) with
  | some x, some y => if x ≤ y then rangeToks x y else []
  | _, _ => []

/-- The body of the part loop (app.py lines 68–78).  A part containing a
hyphen or en dash is split on them; the two-variable unpacking
`a,b = re.split(r"[\-–]", p)` raises an uncaught `ValueError` unless the
split has exactly two pieces (`.error ()`).  A part with no hyphen is
appended stripped, uninterpreted. -/
def processPart (p : Str) : Except Unit (List Str) :=
  if p.any isHyph then
    match splitOnHyph p with
    | [a, b] => .ok (processRange a b)
    | _ => .error ()
  else .ok [pyStrip p]

def gatherParts : List Str → Except Unit (List Str)
  | [] => .ok []
  | p :: ps =>
    match processPart p, gatherParts ps with
    | .ok a, .ok b => .ok (a ++ b)
    | .error e, _ => .error e
    | _, .error e => .error e

def gatherBlobs : List Str → Except Unit (List Str)
  | [] => .ok []
  | blob :: bs =>
    match gatherParts (pyCommaSplit blob), gatherBlobs bs with
    | .ok a, .ok b => .ok (a ++ b)
    | .error e, _ => .error e
    | _, .error e => .error e

/-- First-occurrence deduplication: the model of `set(nums)` iteration order
(CPython's set order is hash-dependent; insertion order is one refinement,
and the sort that follows makes the choice observable only between distinct
tokens with equal keys). -/
def dedupFirstGo (seen : List Str) : List Str → List Str
  | [] => []
  | s :: rest =>
    if s ∈ seen then dedupFirstGo seen rest
    else s :: dedupFirstGo (s :: seen) rest

def dedupFirst (l : List Str) : List Str := dedupFirstGo [] l

/-- Stable insertion sort by a boolean `le`: the list model of Python's
stable `sorted`. -/
def insertIn (le : Str → Str → Bool) (x : Str) : List Str → List Str
  | [] => [x]
  | a :: l => if le x a then x :: a :: l else a :: insertIn le x l

def sortBy (le : Str → Str → Bool) (l : List Str) : List Str :=
  l.foldr (insertIn le) []

def pyIsDigit (s : Str) : Bool := !s.isEmpty && s.all isDig

def keyNatLe (a b : Str) : Bool := digitsVal a ≤ digitsVal b

def lexLe : Str → Str → Bool
  | [], _ => true
  | _ :: _, [] => false
  | a :: as_, b :: bs => if a == b then lexLe as_ bs else decide (a < b)

/-- `sorted(set(nums), key=lambda x: int(x) if x.isdigit() else x)`
(app.py line 79).  Python compares the keys: all-numeric tokens sort by
value, all-non-numeric by string order, and a mixed list raises `TypeError`
when an `int` key meets a `str` key (any list of length ≥ 2 with both kinds
does, under CPython's binary insertion).  The tokens this program produces
are always all-numeric, so the last two branches are unreachable (proved
below). -/
def pySortedSet (nums : List Str) : Except Unit (List Str) :=
  if (dedupFirst nums).all pyIsDigit then
    .ok (sortBy keyNatLe (dedupFirst nums))
  else if (dedupFirst nums).all (fun s => !pyIsDigit s) then
    .ok (sortBy lexLe (dedupFirst nums))
  else .error ()

def wrapBracket (s : Str) : Str := '[' :: (s ++ [']'])

/-- `extract_ieee` (app.py lines 63–80). -/
def extract_ieee (text : Str) : Except Unit (List Str) :=
  match gatherBlobs (ieeeBlobs text) with
  | .error e => .error e
  | .ok nums =>
    match pySortedSet nums with
    | .error e => .error e
    | .ok uniq => .ok (uniq.map wrapBracket)

/-!
### The aggregator, app.py lines 82–97
-/

/-- The inner `dedupe` of `extract_citations_from_text` (lines 86–92):
strip each candidate, reject empties, keep first occurrences. -/
def dedupeGo (seen : List Str) : List Str → List Str
  | [] => []
  | s :: rest =>
    let s2 := pyStrip s
    if s2 ≠ [] ∧ s2 ∉ seen then s2 :: dedupeGo (s2 :: seen) rest
    else dedupeGo seen rest

def dedupe (seq : List Str) : List Str := dedupeGo [] seq

structure CitationTable where
  APA_parenthetical : List Str
  APA_narrative : List Str
  IEEE_numeric : List Str
deriving DecidableEq

/-- `extract_citations_from_text` (app.py lines 82–97).  The only fallible
extractor is the IEEE one; its exception propagates. -/
def extract_citations_from_text (text : Str) : Except Unit CitationTable :=
  match extract_ieee text with
  | .error e => .error e
  | .ok ie =>
    .ok ⟨dedupe (extract_apa_parenthetical text),
         dedupe (extract_apa_narrative text),
         dedupe ie⟩

/-!
### The row flattening of the `/extract` route, app.py lines 125–134

Rows are `(Type, Citation)` pairs over the table in dict order
(`APA_parenthetical`, `APA_narrative`, `IEEE_numeric`, underscores replaced
by spaces), and each row's `Count` is the `Counter` value of its citation
string over all rows' citations. -/
def typeLabel (s : Str) : Str := s.map fun c => if c == '_' then ' ' else c

def countOcc (c : Str) : List Str → Nat
  | [] => 0
  | x :: r => (if x = c then 1 else 0) + countOcc c r

def famPairs (t : CitationTable) : List (Str × Str) :=
  t.APA_parenthetical.map (fun c => (typeLabel "APA_parenthetical".toList, c)) ++
  t.APA_narrative.map (fun c => (typeLabel "APA_narrative".toList, c)) ++
  t.IEEE_numeric.map (fun c => (typeLabel "IEEE_numeric".toList, c))

def rowsOf (t : CitationTable) : List (Str × Str × Nat) :=
  (famPairs t).map fun p => (p.1, p.2, countOcc p.2 ((famPairs t).map Prod.snd))

def extractRows (text : Str) : Except Unit (List (Str × Str × Nat)) :=
  (extract_citations_from_text text).map rowsOf

/-- Index of the first occurrence of `x` (length of the list when absent). -/
def firstIdx (x : Str) : List Str → Nat
  | [] => 0
  | a :: l => if a = x then 0 else firstIdx x l + 1

/-- What the aggregator guarantees for one family: the emitted sequence
against the family's candidate sequence after the per-candidate
`strip()`. -/
def dedupProps (cand out : List Str) : Prop :=
  out.Nodup ∧ [] ∉ out ∧
    out.Pairwise fun a b =>
      firstIdx a (cand.map pyStrip) < firstIdx b (cand.map pyStrip)

/-- A table-level citation string: non-empty, no leading or trailing
whitespace. -/
def cleanStr (s : Str) : Prop :=
  s ≠ [] ∧ (∀ c, s.head? = some c → pyWs c = false) ∧
    (∀ c, s.getLast? = some c → pyWs c = false)

/-- In how many of the three family sequences does `c` occur? -/
def famCount (t : CitationTable) (c : Str) : Nat :=
  (if c ∈ t.APA_parenthetical then 1 else 0) +
  (if c ∈ t.APA_narrative then 1 else 0) +
  (if c ∈ t.IEEE_numeric then 1 else 0)

/-!
## Basic list lemmas
-/

theorem mem_takeWhile_prop {p : Char → Bool} {l : Str} {c : Char}
    (h : c ∈ l.takeWhile p) : p c = true := by
  induction l with
  | nil => simp [List.takeWhile] at h
  | cons a r ih =>
    simp only [List.takeWhile] at h
    cases hp : p a with
    | true =>
      rw [hp] at h
      rcases List.mem_cons.mp h with h | h
      · exact h ▸ hp
      · exact ih h
    | false => rw [hp] at h; simp at h

theorem dropWhile_head_false {p : Char → Bool} {l : Str} {c : Char}
    (h : (l.dropWhile p).head? = some c) : p c = false := by
  induction l with
  | nil => simp [List.dropWhile] at h
  | cons a r ih =>
    simp only [List.dropWhile] at h
    cases hp : p a with
    | true => rw [hp] at h; exact ih h
    | false =>
      rw [hp] at h
      simp only [List.head?_cons, Option.some.injEq] at h
      exact h ▸ hp

theorem dropWhile_idem (p : Char → Bool) (l : Str) :
    (l.dropWhile p).dropWhile p = l.dropWhile p := by
  cases h : l.dropWhile p with
  | nil => rfl
  | cons a r =>
    have : p a = false := dropWhile_head_false (by rw [h]; rfl)
    simp [List.dropWhile, this]

theorem dropWhile_append_of_all {p : Char → Bool} {w : Str}
    (hw : ∀ c ∈ w, p c = true) (x : Str) :
    (w ++ x).dropWhile p = x.dropWhile p := by
  induction w with
  | nil => rfl
  | cons a r ih =>
    have ha : p a = true := hw a (by simp)
    simp only [List.cons_append, List.dropWhile, ha]
    exact ih fun c hc => hw c (by simp [hc])

theorem dropWhile_append_of_ne_nil {p : Char → Bool} {x : Str}
    (hx : x.dropWhile p ≠ []) (y : Str) :
    (x ++ y).dropWhile p = x.dropWhile p ++ y := by
  induction x with
  | nil => simp [List.dropWhile] at hx
  | cons a r ih =>
    simp only [List.cons_append, List.dropWhile]
    cases hp : p a with
    | true =>
      simp only [List.dropWhile, hp] at hx
      exact ih hx
    | false => simp

theorem dropWhile_eq_nil_all {p : Char → Bool} {x : Str}
    (hx : x.dropWhile p = []) : ∀ c ∈ x, p c = true := by
  induction x with
  | nil => simp
  | cons a r ih =>
    simp only [List.dropWhile] at hx
    cases hp : p a with
    | true =>
      rw [hp] at hx
      intro c hc
      rcases List.mem_cons.mp hc with h | h
      · exact h ▸ hp
      · exact ih hx c h
    | false => rw [hp] at hx; simp at hx

theorem getLast?_reverse_eq (l : Str) : l.reverse.getLast? = l.head? := by
  induction l with
  | nil => rfl
  | cons a r _ =>
    rw [List.reverse_cons, List.getLast?_append_of_ne_nil _ (by simp)]
    rfl

theorem head?_reverse_eq (l : Str) : l.reverse.head? = l.getLast? := by
  have := getLast?_reverse_eq l.reverse
  rw [List.reverse_reverse] at this
  exact this.symm

/-!
## Lemmas about the strips
-/

theorem stripBy_head_false {p : Char → Bool} {l : Str} {c : Char}
    (h : (stripBy p l).head? = some c) : p c = false := by
  unfold stripBy at h
  set m := l.dropWhile p with hm
  set y := m.reverse.dropWhile p with hy
  have hyne : y ≠ [] := by
    intro he
    rw [he] at h
    simp at h
  have h1 : y.reverse.head? = y.getLast? := head?_reverse_eq y
  have h2 : y.getLast? = m.reverse.getLast? := by
    obtain ⟨w, hw⟩ : ∃ w, m.reverse = w ++ y := by
      refine ⟨m.reverse.takeWhile p, ?_⟩
      rw [hy, List.takeWhile_append_dropWhile]
    rw [hw, List.getLast?_append_of_ne_nil _ hyne]
  have h3 : m.reverse.getLast? = m.head? := getLast?_reverse_eq m
  rw [h1, h2, h3] at h
  exact dropWhile_head_false (hm ▸ h)

theorem stripBy_getLast_false {p : Char → Bool} {l : Str} {c : Char}
    (h : (stripBy p l).getLast? = some c) : p c = false := by
  unfold stripBy at h
  rw [getLast?_reverse_eq] at h
  exact dropWhile_head_false h

/-- Decomposition of the right strip: the dropped characters all satisfy
`p`. -/
theorem stripRight_decomp (p : Char → Bool) (l : Str) :
    ∃ w, l = (l.reverse.dropWhile p).reverse ++ w ∧ ∀ c ∈ w, p c = true := by
  refine ⟨(l.reverse.takeWhile p).reverse, ?_, ?_⟩
  · conv_lhs => rw [← l.reverse_reverse]
    rw [← List.reverse_append, List.takeWhile_append_dropWhile]
  · intro c hc
    rw [List.mem_reverse] at hc
    exact mem_takeWhile_prop hc

theorem pyStrip_append_ws {w : Str} (hw : ∀ c ∈ w, pyWs c = true) (x : Str) :
    pyStrip (x ++ w) = pyStrip x := by
  unfold pyStrip stripBy
  cases he : x.dropWhile pyWs with
  | nil =>
    have hxall : ∀ c ∈ x, pyWs c = true := dropWhile_eq_nil_all he
    have h1 : (x ++ w).dropWhile pyWs = [] := by
      rw [dropWhile_append_of_all hxall, List.dropWhile_eq_nil_iff]
      intro c hc; exact hw c hc
    simp only [h1, he]
  | cons a r =>
    have h1 : (x ++ w).dropWhile pyWs = x.dropWhile pyWs ++ w := by
      exact dropWhile_append_of_ne_nil (by rw [he]; simp) w
    rw [h1, List.reverse_append,
      dropWhile_append_of_all (fun c hc => hw c (List.mem_reverse.mp hc))]
    rw [he]

theorem pyStrip_ws_append {w : Str} (hw : ∀ c ∈ w, pyWs c = true) (x : Str) :
    pyStrip (w ++ x) = pyStrip x := by
  unfold pyStrip stripBy
  rw [dropWhile_append_of_all hw]

theorem pyStrip_dropLeadWs (x : Str) : pyStrip (dropLeadWs x) = pyStrip x := by
  unfold pyStrip stripBy dropLeadWs
  rw [dropWhile_idem]

theorem pyStrip_dropTrailWs (x : Str) :
    pyStrip (dropTrailWs x) = pyStrip x := by
  obtain ⟨w, hsplit, hwall⟩ := stripRight_decomp pyWs x
  unfold dropTrailWs
  conv_rhs => rw [hsplit]
  rw [pyStrip_append_ws hwall]

theorem any_append_ws {q : Char → Bool} (hq : ∀ c, pyWs c = true → q c = false)
    {w : Str} (hw : ∀ c ∈ w, pyWs c = true) (x : Str) :
    (x ++ w).any q = x.any q := by
  rw [List.any_append]
  have : w.any q = false := by
    rw [List.any_eq_false]
    intro c hc
    simp [hq c (hw c hc)]
  rw [this, Bool.or_false]

theorem pyWs_not_hyph {c : Char} (h : pyWs c = true) : isHyph c = false := by
  unfold pyWs at h
  rcases Bool.or_eq_true_iff.mp h with h | h
  · rcases Bool.or_eq_true_iff.mp h with h | h
    · rcases Bool.or_eq_true_iff.mp h with h | h
      · rcases Bool.or_eq_true_iff.mp h with h | h
        · rcases Bool.or_eq_true_iff.mp h with h | h <;>
            rw [show c = _ from eq_of_beq h] <;> decide
        · rw [show c = _ from eq_of_beq h]; decide
      · rw [show c = _ from eq_of_beq h]; decide
    · rw [show c = _ from eq_of_beq h]; decide
  · rw [show c = _ from eq_of_beq h]; decide

theorem any_hyph_dropTrailWs (x : Str) :
    (dropTrailWs x).any isHyph = x.any isHyph := by
  obtain ⟨w, hsplit, hwall⟩ := stripRight_decomp pyWs x
  unfold dropTrailWs
  conv_rhs => rw [hsplit]
  rw [any_append_ws (fun c hc => pyWs_not_hyph hc) hwall]

theorem any_hyph_dropLeadWs (x : Str) :
    (dropLeadWs x).any isHyph = x.any isHyph := by
  have hsplit : x = x.takeWhile pyWs ++ dropLeadWs x :=
    (List.takeWhile_append_dropWhile ..).symm
  conv_rhs => rw [hsplit]
  rw [List.any_append]
  have : (x.takeWhile pyWs).any isHyph = false := by
    rw [List.any_eq_false]
    intro c hc
    simp [pyWs_not_hyph (mem_takeWhile_prop hc)]
  rw [this, Bool.false_or]

/-!
## Lemmas about the aggregator's `dedupe`
-/

theorem dedupeGo_mem {l : List Str} {x : Str} :
    ∀ {seen : List Str}, x ∈ dedupeGo seen l →
      x ∉ seen ∧ x ≠ [] ∧ x ∈ l.map pyStrip := by
  induction l with
  | nil => intro seen h; simp [dedupeGo] at h
  | cons s rest ih =>
    intro seen h
    simp only [dedupeGo] at h
    by_cases hc : pyStrip s ≠ [] ∧ pyStrip s ∉ seen
    · rw [if_pos hc] at h
      rcases List.mem_cons.mp h with he | ht
      · subst he
        exact ⟨hc.2, hc.1, by simp⟩
      · obtain ⟨hs, hne, hm⟩ := ih ht
        refine ⟨fun hx => hs (by simp [hx]), hne, by simp [hm]⟩
    · rw [if_neg hc] at h
      obtain ⟨hs, hne, hm⟩ := ih h
      exact ⟨hs, hne, by simp [hm]⟩

theorem dedupeGo_nodup (l : List Str) :
    ∀ seen : List Str, (dedupeGo seen l).Nodup := by
  induction l with
  | nil => intro seen; simp [dedupeGo]
  | cons s rest ih =>
    intro seen
    simp only [dedupeGo]
    by_cases hc : pyStrip s ≠ [] ∧ pyStrip s ∉ seen
    · rw [if_pos hc]
      refine List.nodup_cons.mpr ⟨?_, ih _⟩
      intro hmem
      exact (dedupeGo_mem hmem).1 (by simp)
    · rw [if_neg hc]
      exact ih _

theorem firstIdx_cons (a x : Str) (l : List Str) :
    firstIdx x (a :: l) = if a = x then 0 else firstIdx x l + 1 := rfl

theorem dedupeGo_pairwise (l : List Str) :
    ∀ seen : List Str,
      (dedupeGo seen l).Pairwise fun a b =>
        firstIdx a (l.map pyStrip) < firstIdx b (l.map pyStrip) := by
  induction l with
  | nil => intro seen; simp [dedupeGo]
  | cons s rest ih =>
    intro seen
    simp only [dedupeGo, List.map_cons]
    by_cases hc : pyStrip s ≠ [] ∧ pyStrip s ∉ seen
    · rw [if_pos hc]
      refine List.pairwise_cons.mpr ⟨?_, ?_⟩
      · intro b hb
        have hbmem := dedupeGo_mem hb
        have hbs : b ≠ pyStrip s := fun he => hbmem.1 (by simp [he])
        rw [firstIdx_cons, if_pos rfl, firstIdx_cons,
          if_neg (fun he => hbs he.symm)]
        exact Nat.succ_pos _
      · refine List.Pairwise.imp_of_mem ?_ (ih (pyStrip s :: seen))
        intro a b ha hb hab
        have has : a ≠ pyStrip s := fun he => (dedupeGo_mem ha).1 (by simp [he])
        have hbs : b ≠ pyStrip s := fun he => (dedupeGo_mem hb).1 (by simp [he])
        rw [firstIdx_cons, if_neg (fun he => has he.symm),
          firstIdx_cons, if_neg (fun he => hbs he.symm)]
        exact Nat.succ_lt_succ hab
    · rw [if_neg hc]
      refine List.Pairwise.imp_of_mem ?_ (ih seen)
      intro a b ha hb hab
      have has : a ≠ pyStrip s := by
        intro he
        rcases Decidable.not_and_iff_or_not.mp hc with h | h
        · exact h (he ▸ (dedupeGo_mem ha).2.1)
        · exact (dedupeGo_mem ha).1 (he ▸ Decidable.not_not.mp h)
      have hbs : b ≠ pyStrip s := by
        intro he
        rcases Decidable.not_and_iff_or_not.mp hc with h | h
        · exact h (he ▸ (dedupeGo_mem hb).2.1)
        · exact (dedupeGo_mem hb).1 (he ▸ Decidable.not_not.mp h)
      rw [firstIdx_cons, if_neg (fun he => has he.symm),
        firstIdx_cons, if_neg (fun he => hbs he.symm)]
      exact Nat.succ_lt_succ hab

theorem dedupe_props (l : List Str) : dedupProps l (dedupe l) := by
  refine ⟨dedupeGo_nodup l [], ?_, dedupeGo_pairwise l []⟩
  intro h
  exact (dedupeGo_mem h).2.1 rfl

theorem dedupe_clean {l : List Str} {s : Str} (h : s ∈ dedupe l) :
    cleanStr s := by
  obtain ⟨-, hne, hm⟩ := dedupeGo_mem h
  obtain ⟨t, -, ht⟩ := List.mem_map.mp hm
  refine ⟨hne, ?_, ?_⟩
  · intro c hc
    exact stripBy_head_false (ht ▸ hc)
  · intro c hc
    exact stripBy_getLast_false (ht ▸ hc)

/-!
## Counting lemmas for the row flattening
-/

theorem countOcc_append (c : Str) (a b : List Str) :
    countOcc c (a ++ b) = countOcc c a + countOcc c b := by
  induction a with
  | nil => simp [countOcc]
  | cons x r ih => simp [countOcc, ih]; omega

theorem countOcc_eq_zero {c : Str} {l : List Str} (h : c ∉ l) :
    countOcc c l = 0 := by
  induction l with
  | nil => rfl
  | cons x r ih =>
    simp only [countOcc]
    rw [if_neg (fun he => h (by simp [he])), ih (fun hm => h (by simp [hm]))]

theorem countOcc_eq_one {c : Str} {l : List Str} (hn : l.Nodup)
    (h : c ∈ l) : countOcc c l = 1 := by
  induction l with
  | nil => simp at h
  | cons x r ih =>
    simp only [countOcc]
    rcases List.mem_cons.mp h with he | hm
    · rw [if_pos he.symm,
        countOcc_eq_zero (fun hc => (List.nodup_cons.mp hn).1 (he ▸ hc))]
    · rw [if_neg, ih (List.nodup_cons.mp hn).2 hm]
      intro he
      exact (List.nodup_cons.mp hn).1 (he ▸ hm)

theorem countOcc_mem_cases (c : Str) {l : List Str} (hn : l.Nodup) :
    countOcc c l = if c ∈ l then 1 else 0 := by
  by_cases h : c ∈ l
  · rw [if_pos h, countOcc_eq_one hn h]
  · rw [if_neg h, countOcc_eq_zero h]

theorem famPairs_snd (t : CitationTable) :
    (famPairs t).map Prod.snd =
      t.APA_parenthetical ++ t.APA_narrative ++ t.IEEE_numeric := by
  simp [famPairs, List.map_append, List.map_map, Function.comp]

theorem famPairs_mem_snd {t : CitationTable} {p : Str × Str}
    (h : p ∈ famPairs t) :
    p.2 ∈ t.APA_parenthetical ∨ p.2 ∈ t.APA_narrative ∨
      p.2 ∈ t.IEEE_numeric := by
  unfold famPairs at h
  rcases List.mem_append.mp h with h | h
  · rcases List.mem_append.mp h with h | h
    · obtain ⟨c, hc, he⟩ := List.mem_map.mp h
      exact Or.inl (by rw [← he]; exact hc)
    · obtain ⟨c, hc, he⟩ := List.mem_map.mp h
      exact Or.inr (Or.inl (by rw [← he]; exact hc))
  · obtain ⟨c, hc, he⟩ := List.mem_map.mp h
    exact Or.inr (Or.inr (by rw [← he]; exact hc))

/-- The core counting fact behind the amended C1: with the three family
sequences duplicate-free, a row's `Count` is the number of families its
citation occurs in. -/
theorem rowsOf_count (t : CitationTable)
    (h1 : t.APA_parenthetical.Nodup) (h2 : t.APA_narrative.Nodup)
    (h3 : t.IEEE_numeric.Nodup) :
    ∀ r ∈ rowsOf t, r.2.2 = famCount t r.2.1 ∧ 1 ≤ r.2.2 := by
  intro r hr
  obtain ⟨p, hp, he⟩ := List.mem_map.mp hr
  have hcount : countOcc p.2 ((famPairs t).map Prod.snd) = famCount t p.2 := by
    rw [famPairs_snd, countOcc_append, countOcc_append,
      countOcc_mem_cases _ h1, countOcc_mem_cases _ h2,
      countOcc_mem_cases _ h3]
    rfl
  have hsnd : r.2.1 = p.2 := by rw [← he]
  have hcnt : r.2.2 = countOcc p.2 ((famPairs t).map Prod.snd) := by rw [← he]
  constructor
  · rw [hcnt, hsnd, hcount]
  · rw [hcnt, hcount]
    unfold famCount
    rcases famPairs_mem_snd hp with h | h | h <;> simp [h] <;> omega

/-!
## The stable insertion sort and first-occurrence deduplication
-/

theorem mem_insertIn {le : Str → Str → Bool} {x y : Str} {l : List Str} :
    y ∈ insertIn le x l ↔ y = x ∨ y ∈ l := by
  induction l with
  | nil => simp [insertIn]
  | cons a r ih =>
    simp only [insertIn]
    by_cases h : le x a = true
    · rw [if_pos h]
      simp [List.mem_cons]
    · rw [if_neg h]
      simp only [List.mem_cons, ih]
      tauto

theorem insertIn_perm (le : Str → Str → Bool) (x : Str) (l : List Str) :
    (insertIn le x l).Perm (x :: l) := by
  induction l with
  | nil => simp [insertIn]
  | cons a r ih =>
    simp only [insertIn]
    by_cases h : le x a = true
    · rw [if_pos h]
    · rw [if_neg h]
      exact (ih.cons a).trans (List.Perm.swap x a r)

theorem sortBy_perm (le : Str → Str → Bool) (l : List Str) :
    (sortBy le l).Perm l := by
  induction l with
  | nil => simp [sortBy]
  | cons a r ih =>
    have : sortBy le (a :: r) = insertIn le a (sortBy le r) := rfl
    rw [this]
    exact (insertIn_perm le a (sortBy le r)).trans (ih.cons a)

theorem pairwise_insertIn {le : Str → Str → Bool}
    (htot : ∀ a b, le a b = true ∨ le b a = true)
    (htrans : ∀ a b c, le a b = true → le b c = true → le a c = true)
    {x : Str} {l : List Str}
    (h : l.Pairwise fun a b => le a b = true) :
    (insertIn le x l).Pairwise fun a b => le a b = true := by
  induction l with
  | nil => simp [insertIn]
  | cons a r ih =>
    simp only [insertIn]
    rcases List.pairwise_cons.mp h with ⟨ha, hr⟩
    by_cases hle : le x a = true
    · rw [if_pos hle]
      refine List.pairwise_cons.mpr ⟨?_, h⟩
      intro b hb
      rcases List.mem_cons.mp hb with he | hm
      · exact he ▸ hle
      · exact htrans x a b hle (ha b hm)
    · rw [if_neg hle]
      refine List.pairwise_cons.mpr ⟨?_, ih hr⟩
      intro b hb
      rcases mem_insertIn.mp hb with he | hm
      · subst he
        rcases htot a b with h | h
        · exact h
        · exact absurd h hle
      · exact ha b hm

theorem sortBy_pairwise {le : Str → Str → Bool}
    (htot : ∀ a b, le a b = true ∨ le b a = true)
    (htrans : ∀ a b c, le a b = true → le b c = true → le a c = true)
    (l : List Str) :
    (sortBy le l).Pairwise fun a b => le a b = true := by
  induction l with
  | nil => simp [sortBy]
  | cons a r ih =>
    exact pairwise_insertIn htot htrans ih

theorem dedupFirstGo_mem {l : List Str} {x : Str} :
    ∀ {seen : List Str}, x ∈ dedupFirstGo seen l → x ∉ seen ∧ x ∈ l := by
  induction l with
  | nil => intro seen h; simp [dedupFirstGo] at h
  | cons s rest ih =>
    intro seen h
    simp only [dedupFirstGo] at h
    by_cases hc : s ∈ seen
    · rw [if_pos hc] at h
      obtain ⟨h1, h2⟩ := ih h
      exact ⟨h1, by simp [h2]⟩
    · rw [if_neg hc] at h
      rcases List.mem_cons.mp h with he | ht
      · exact ⟨he ▸ hc, by simp [he]⟩
      · obtain ⟨h1, h2⟩ := ih ht
        exact ⟨fun hx => h1 (by simp [hx]), by simp [h2]⟩

theorem dedupFirstGo_nodup (l : List Str) :
    ∀ seen : List Str, (dedupFirstGo seen l).Nodup := by
  induction l with
  | nil => intro seen; simp [dedupFirstGo]
  | cons s rest ih =>
    intro seen
    simp only [dedupFirstGo]
    by_cases hc : s ∈ seen
    · rw [if_pos hc]; exact ih _
    · rw [if_neg hc]
      refine List.nodup_cons.mpr ⟨?_, ih _⟩
      intro hmem
      exact (dedupFirstGo_mem hmem).1 (by simp)

/-!
## The IEEE invariant: every token produced is a non-empty digit string

The bracket-group grammar only admits digit runs between separators, the
comma split only detaches whitespace that sits next to a comma, and range
expansion prints decimal numerals — so the `nums` list of `extract_ieee` is
always a list of non-empty all-digit strings, and the sort key is always the
numeric one. -/

theorem pyWs_cases {c : Char} (h : pyWs c = true) :
    c = ' ' ∨ c = '\t' ∨ c = '\n' ∨ c = '\r' ∨
      c = Char.ofNat 11 ∨ c = Char.ofNat 12 := by
  unfold pyWs at h
  rcases Bool.or_eq_true_iff.mp h with h | h
  · rcases Bool.or_eq_true_iff.mp h with h | h
    · rcases Bool.or_eq_true_iff.mp h with h | h
      · rcases Bool.or_eq_true_iff.mp h with h | h
        · rcases Bool.or_eq_true_iff.mp h with h | h
          · exact Or.inl (eq_of_beq h)
          · exact Or.inr (Or.inl (eq_of_beq h))
        · exact Or.inr (Or.inr (Or.inl (eq_of_beq h)))
      · exact Or.inr (Or.inr (Or.inr (Or.inl (eq_of_beq h))))
    · exact Or.inr (Or.inr (Or.inr (Or.inr (Or.inl (eq_of_beq h)))))
  · exact Or.inr (Or.inr (Or.inr (Or.inr (Or.inr (eq_of_beq h)))))

theorem pyWs_not_comma {c : Char} (h : pyWs c = true) :
    (c == ',') = false := by
  rcases pyWs_cases h with h | h | h | h | h | h <;> subst h <;> decide

theorem isDig_not_comma {c : Char} (h : isDig c = true) :
    (c == ',') = false := by
  cases hb : c == ','
  · rfl
  · rw [eq_of_beq hb] at h
    simp [isDig] at h

theorem isDig_not_ws {c : Char} (h : isDig c = true) : pyWs c = false := by
  cases hw : pyWs c
  · rfl
  · rcases pyWs_cases hw with he | he | he | he | he | he <;>
      rw [he] at h <;> simp [isDig] at h

theorem isDig_not_hyph {c : Char} (h : isDig c = true) : isHyph c = false := by
  cases hw : isHyph c
  · rfl
  · unfold isHyph at hw
    rcases Bool.or_eq_true_iff.mp hw with he | he <;>
      rw [eq_of_beq he] at h <;> simp [isDig] at h

theorem sepChar_of_ne_comma {c : Char} (hs : sepChar c = true)
    (hc : c ≠ ',') : isHyph c = true := by
  unfold sepChar at hs
  unfold isHyph
  rcases Bool.or_eq_true_iff.mp hs with h | h
  · rcases Bool.or_eq_true_iff.mp h with h | h
    · simp [h]
    · exact absurd (eq_of_beq h) hc
  · simp [h]

theorem isEmpty_false_ne_nil {l : Str} (h : l.isEmpty = false) : l ≠ [] := by
  cases l with
  | nil => simp at h
  | cons a r => simp

/-- The shape of the characters consumed by the starred iterations of the
bracket-group pattern: whitespace, separator, whitespace, digit run, and so
on. -/
inductive ItersShape : Str → Prop where
  | nil : ItersShape []
  | cons (w1 : Str) (c : Char) (w2 d t : Str)
      (hw1 : ∀ x ∈ w1, pyWs x = true) (hc : sepChar c = true)
      (hw2 : ∀ x ∈ w2, pyWs x = true) (hd : d ≠ [])
      (hdig : ∀ x ∈ d, isDig x = true) (ht : ItersShape t) :
      ItersShape (w1 ++ c :: (w2 ++ (d ++ t)))

theorem blobIters_shape : ∀ (f : Nat) (l : Str), ItersShape (blobIters f l).1 := by
  intro f
  induction f with
  | zero => intro l; exact ItersShape.nil
  | succ f ih =>
    intro l
    show ItersShape (blobIters (f + 1) l).1
    rw [blobIters]
    cases hdw : l.dropWhile pyWs with
    | nil => exact ItersShape.nil
    | cons c r2 =>
      by_cases hsep : sepChar c = true
      · simp only [hsep, if_true]
        by_cases hde : ((r2.dropWhile pyWs).takeWhile isDig).isEmpty = true
        · simp only [hde, if_true]
          exact ItersShape.nil
        · simp only [hde, if_false]
          refine ItersShape.cons _ c _ _ _
            (fun x hx => mem_takeWhile_prop hx) hsep
            (fun x hx => mem_takeWhile_prop hx)
            (isEmpty_false_ne_nil (Bool.not_eq_true _ ▸ hde))
            (fun x hx => mem_takeWhile_prop hx) (ih _)
      · simp only [Bool.not_eq_true] at hsep
        simp only [hsep, if_false]
        exact ItersShape.nil

/-- The shape of a captured bracket group: a leading digit run followed by
iterations. -/
def BlobShape (b : Str) : Prop :=
  ∃ ds its, b = ds ++ its ∧ ds ≠ [] ∧ (∀ c ∈ ds, isDig c = true) ∧
    ItersShape its

theorem tryIeee_shape {l blob after : Str}
    (h : tryIeee l = some (blob, after)) : BlobShape blob := by
  unfold tryIeee at h
  split at h
  · next r =>
    by_cases hde : (r.takeWhile isDig).isEmpty = true
    · rw [if_pos hde] at h; exact absurd h (by simp)
    · rw [if_neg hde] at h
      split at h
      · next its after2 heq =>
        have hb : blob = r.takeWhile isDig ++ its := by
          cases h; rfl
        have hits : ItersShape its := by
          have := blobIters_shape (r.length + 1) (r.dropWhile isDig)
          rw [heq] at this
          exact this
        exact ⟨r.takeWhile isDig, its, hb,
          isEmpty_false_ne_nil (Bool.not_eq_true _ ▸ hde),
          fun c hc => mem_takeWhile_prop hc, hits⟩
      · exact absurd h (by simp)
  · exact absurd h (by simp)

theorem ieeeGo_blobs : ∀ (f : Nat) (l : Str) (b : Str),
    b ∈ ieeeGo f l → BlobShape b := by
  intro f
  induction f with
  | zero => intro l b h; simp [ieeeGo] at h
  | succ f ih =>
    intro l b h
    cases l with
    | nil => simp [ieeeGo] at h
    | cons c r =>
      rw [ieeeGo] at h
      cases hti : tryIeee (c :: r) with
      | none => rw [hti] at h; exact ih r b h
      | some pr =>
        obtain ⟨b2, a2⟩ := pr
        rw [hti] at h
        rcases List.mem_cons.mp h with he | ht
        · exact he ▸ tryIeee_shape hti
        · exact ih a2 b ht

/-!
## From bracket groups through the comma split to digit tokens
-/

theorem splitOnChar_ne_nil (sep : Char) (l : Str) :
    splitOnChar sep l ≠ [] := by
  cases l with
  | nil => simp [splitOnChar]
  | cons c r =>
    simp only [splitOnChar]
    by_cases h : (c == sep) = true
    · simp [h]
    · rw [if_neg h]
      cases splitOnChar sep r <;> simp

theorem splitOnChar_append_free {sep : Char} {a : Str}
    (ha : ∀ c ∈ a, (c == sep) = false) (b : Str) {p : Str} {ps : List Str}
    (hb : splitOnChar sep b = p :: ps) :
    splitOnChar sep (a ++ b) = (a ++ p) :: ps := by
  induction a with
  | nil => simpa using hb
  | cons c a2 ih =>
    have hc : (c == sep) = false := ha c (by simp)
    have ih2 := ih fun x hx => ha x (by simp [hx])
    simp only [List.cons_append, splitOnChar, hc, Bool.false_eq_true,
      if_false, List.append_eq]
    rw [ih2]

theorem splitOnChar_free_single {sep : Char} {a : Str}
    (ha : ∀ c ∈ a, (c == sep) = false) :
    splitOnChar sep a = [a] := by
  have hb : splitOnChar sep ([] : Str) = ([] : Str) :: ([] : List Str) := rfl
  have := splitOnChar_append_free ha [] hb
  simpa using this

theorem splitOnChar_sep_cons {sep : Char} {a : Str}
    (ha : ∀ c ∈ a, (c == sep) = false) (b : Str) :
    splitOnChar sep (a ++ sep :: b) = a :: splitOnChar sep b := by
  have hb : splitOnChar sep (sep :: b) = [] :: splitOnChar sep b := by
    simp [splitOnChar]
  have := splitOnChar_append_free ha (sep :: b) hb
  simpa using this

/-- What a comma-free chunk of a bracket group guarantees: if it carries no
hyphen, its stripped form is a non-empty digit run (that is exactly the token
the pass-through branch appends). -/
def chunkOk (q : Str) : Prop :=
  q.any isHyph = false → pyStrip q ≠ [] ∧ ∀ c ∈ pyStrip q, isDig c = true

theorem pyStrip_digits {d : Str} (hdig : ∀ c ∈ d, isDig c = true) :
    pyStrip d = d := by
  unfold pyStrip stripBy
  have h1 : d.dropWhile pyWs = d := by
    cases d with
    | nil => rfl
    | cons a r =>
      simp only [List.dropWhile, isDig_not_ws (hdig a (by simp))]
  rw [h1]
  have h2 : d.reverse.dropWhile pyWs = d.reverse := by
    cases hd : d.reverse with
    | nil => rfl
    | cons a r =>
      have ha : a ∈ d := by
        rw [← List.mem_reverse, hd]; simp
      simp only [List.dropWhile, isDig_not_ws (hdig a ha)]
  rw [h2, List.reverse_reverse]

theorem chunkOk_digits {w2 d : Str} (hw2 : ∀ x ∈ w2, pyWs x = true)
    (hd : d ≠ []) (hdig : ∀ x ∈ d, isDig x = true) :
    chunkOk (w2 ++ d) := by
  intro _
  rw [pyStrip_ws_append hw2, pyStrip_digits hdig]
  exact ⟨hd, hdig⟩

theorem chunkOk_of_strip_eq {q q0 : Str} (hs : pyStrip q = pyStrip q0)
    (hh : q.any isHyph = q0.any isHyph) (h : chunkOk q0) : chunkOk q := by
  intro hq
  rw [hs]
  exact h (by rw [← hh]; exact hq)

/-- The central chunk lemma: splitting a prefix followed by well-shaped
iterations on commas yields only chunks satisfying `chunkOk`, provided the
prefix is comma-free and itself `chunkOk`. -/
theorem iters_chunks {its : Str} (h : ItersShape its) :
    ∀ pre : Str, (∀ c ∈ pre, (c == ',') = false) → chunkOk pre →
      ∀ q ∈ splitOnChar ',' (pre ++ its), chunkOk q := by
  induction h with
  | nil =>
    intro pre hfree hok q hq
    rw [List.append_nil, splitOnChar_free_single hfree] at hq
    simp at hq
    exact hq ▸ hok
  | cons w1 c w2 d t hw1 hc hw2 hd hdig ht ih =>
    intro pre hfree hok q hq
    by_cases hcomma : c = ','
    · subst hcomma
      have hre : pre ++ (w1 ++ ',' :: (w2 ++ (d ++ t))) =
          (pre ++ w1) ++ ',' :: ((w2 ++ d) ++ t) := by
        simp [List.append_assoc]
      rw [hre] at hq
      have hpw1free : ∀ x ∈ pre ++ w1, (x == ',') = false := by
        intro x hx
        rcases List.mem_append.mp hx with h | h
        · exact hfree x h
        · exact pyWs_not_comma (hw1 x h)
      rw [splitOnChar_sep_cons hpw1free] at hq
      rcases List.mem_cons.mp hq with he | hrest
      · subst he
        intro hqh
        have hpreh : pre.any isHyph = false := by
          rw [List.any_append] at hqh
          exact (Bool.or_eq_false_iff.mp hqh).1
        rw [pyStrip_append_ws hw1]
        exact hok hpreh
      · refine ih (w2 ++ d) ?_ (chunkOk_digits hw2 hd hdig) q ?_
        · intro x hx
          rcases List.mem_append.mp hx with h | h
          · exact pyWs_not_comma (hw2 x h)
          · exact isDig_not_comma (hdig x h)
        · exact hrest
    · have hhyph : isHyph c = true := sepChar_of_ne_comma hc hcomma
      have hre : pre ++ (w1 ++ c :: (w2 ++ (d ++ t))) =
          (pre ++ (w1 ++ c :: (w2 ++ d))) ++ t := by
        simp [List.append_assoc]
      rw [hre] at hq
      refine ih (pre ++ (w1 ++ c :: (w2 ++ d))) ?_ ?_ q hq
      · intro x hx
        rcases List.mem_append.mp hx with h | h
        · exact hfree x h
        · rcases List.mem_append.mp h with h | h
          · exact pyWs_not_comma (hw1 x h)
          · rcases List.mem_cons.mp h with he | h
            · subst he
              cases hb : x == ','
              · rfl
              · exact absurd (eq_of_beq hb) hcomma
            · rcases List.mem_append.mp h with h | h
              · exact pyWs_not_comma (hw2 x h)
              · exact isDig_not_comma (hdig x h)
      · intro hany
        exfalso
        rw [List.any_eq_false] at hany
        exact hany c (by simp) hhyph

/-- Transfer from the whitespace-trimmed pieces of `pyCommaSplit` back to the
raw comma chunks. -/
theorem commaMid_mem {ps : List Str} {q : Str} (h : q ∈ commaMid ps) :
    ∃ q0 ∈ ps, pyStrip q = pyStrip q0 ∧ q.any isHyph = q0.any isHyph := by
  induction ps with
  | nil => simp [commaMid] at h
  | cons a ps ih =>
    cases ps with
    | nil =>
      simp only [commaMid, List.mem_singleton] at h
      exact ⟨a, by simp, h ▸ pyStrip_dropLeadWs a, h ▸ any_hyph_dropLeadWs a⟩
    | cons b ps2 =>
      simp only [commaMid] at h
      rcases List.mem_cons.mp h with he | ht
      · refine ⟨a, by simp, ?_, ?_⟩
        · rw [he, pyStrip_dropLeadWs, pyStrip_dropTrailWs]
        · rw [he, any_hyph_dropLeadWs, any_hyph_dropTrailWs]
      · obtain ⟨q0, hq0, h1, h2⟩ := ih ht
        exact ⟨q0, by simp [hq0], h1, h2⟩

theorem pyCommaSplit_mem {x q : Str} (h : q ∈ pyCommaSplit x) :
    ∃ q0 ∈ splitOnChar ',' x, pyStrip q = pyStrip q0 ∧
      q.any isHyph = q0.any isHyph := by
  unfold pyCommaSplit at h
  cases hsc : splitOnChar ',' x with
  | nil => rw [hsc] at h; simp at h
  | cons p ps =>
    rw [hsc] at h
    cases ps with
    | nil =>
      simp only [List.mem_singleton] at h
      exact ⟨p, by simp, by rw [h], by rw [h]⟩
    | cons b ps2 =>
      rcases List.mem_cons.mp h with he | ht
      · refine ⟨p, by simp, ?_, ?_⟩
        · rw [he, pyStrip_dropTrailWs]
        · rw [he, any_hyph_dropTrailWs]
      · obtain ⟨q0, hq0, h1, h2⟩ := commaMid_mem ht
        exact ⟨q0, by simp [hq0], h1, h2⟩

theorem blob_parts_ok {b : Str} (hb : BlobShape b) :
    ∀ q ∈ pyCommaSplit b, chunkOk q := by
  obtain ⟨ds, its, he, hne, hdig, hshape⟩ := hb
  intro q hq
  obtain ⟨q0, hq0, hs, hh⟩ := pyCommaSplit_mem hq
  refine chunkOk_of_strip_eq hs hh ?_
  rw [he] at hq0
  refine iters_chunks hshape ds (fun c hc => isDig_not_comma (hdig c hc))
    ?_ q0 hq0
  intro _
  rw [pyStrip_digits hdig]
  exact ⟨hne, hdig⟩

/-!
## The produced tokens are non-empty digit strings
-/

theorem digChar_isDig {m : Nat} (h : m < 10) :
    isDig (Char.ofNat (48 + m)) = true := by
  interval_cases m <;> decide

theorem natToStrGo_decomp : ∀ (f n : Nat) (acc : Str),
    ∃ pre, natToStrGo f n acc = pre ++ acc ∧ ∀ c ∈ pre, isDig c = true := by
  intro f
  induction f with
  | zero => intro n acc; exact ⟨[], rfl, by simp⟩
  | succ f ih =>
    intro n acc
    by_cases hn : (n == 0) = true
    · refine ⟨[], ?_, by simp⟩
      simp [natToStrGo, hn]
    · obtain ⟨pre, hpre, hdig⟩ := ih (n / 10) (Char.ofNat (48 + n % 10) :: acc)
      refine ⟨pre ++ [Char.ofNat (48 + n % 10)], ?_, ?_⟩
      · simp only [natToStrGo, hn, Bool.false_eq_true, if_false]
        rw [hpre]
        simp
      · intro c hc
        rcases List.mem_append.mp hc with h | h
        · exact hdig c h
        · rw [List.mem_singleton.mp h]
          exact digChar_isDig (Nat.mod_lt _ (by omega))

theorem natToStr_good (n : Nat) :
    natToStr n ≠ [] ∧ ∀ c ∈ natToStr n, isDig c = true := by
  unfold natToStr
  by_cases hn : (n == 0) = true
  · simp only [hn, if_true]
    exact ⟨by simp, by intro c hc; rw [List.mem_singleton.mp hc]; decide⟩
  · simp only [hn, Bool.false_eq_true, if_false]
    have hstep : natToStrGo (n + 1) n [] =
        natToStrGo n (n / 10) [Char.ofNat (48 + n % 10)] := by
      simp [natToStrGo, hn]
    obtain ⟨pre, hpre, hdig⟩ := natToStrGo_decomp n (n / 10)
      [Char.ofNat (48 + n % 10)]
    rw [hstep, hpre]
    constructor
    · simp
    · intro c hc
      rcases List.mem_append.mp hc with h | h
      · exact hdig c h
      · rw [List.mem_singleton.mp h]
        exact digChar_isDig (Nat.mod_lt _ (by omega))

theorem rangeToks_good {a b : Nat} {s : Str} (h : s ∈ rangeToks a b) :
    s ≠ [] ∧ ∀ c ∈ s, isDig c = true := by
  unfold rangeToks at h
  obtain ⟨i, -, he⟩ := List.mem_map.mp h
  exact he ▸ natToStr_good (a + i)

theorem processRange_good {a b : Str} {s : Str} (h : s ∈ processRange a b) :
    s ≠ [] ∧ ∀ c ∈ s, isDig c = true := by
  unfold processRange at h
  split at h
  · rename_i x y hx hy
    by_cases hxy : x ≤ y
    · rw [if_pos hxy] at h
      exact rangeToks_good h
    · rw [if_neg hxy] at h
      simp at h
  · simp at h

theorem processPart_good {p : Str} {toks : List Str} (hok : chunkOk p)
    (h : processPart p = .ok toks) :
    ∀ s ∈ toks, s ≠ [] ∧ ∀ c ∈ s, isDig c = true := by
  unfold processPart at h
  by_cases hh : p.any isHyph = true
  · rw [if_pos hh] at h
    split at h
    · next a2 b2 heq =>
      have : toks = processRange a2 b2 := by cases h; rfl
      subst this
      intro s hs
      exact processRange_good hs
    · exact absurd h (by simp)
  · rw [if_neg hh] at h
    have : toks = [pyStrip p] := by cases h; rfl
    subst this
    intro s hs
    rw [List.mem_singleton.mp hs]
    exact hok (Bool.not_eq_true _ ▸ hh)

theorem gatherParts_good {ps : List Str} :
    ∀ {toks : List Str}, (∀ p ∈ ps, chunkOk p) →
      gatherParts ps = .ok toks →
      ∀ s ∈ toks, s ≠ [] ∧ ∀ c ∈ s, isDig c = true := by
  induction ps with
  | nil =>
    intro toks _ h s hs
    have : toks = [] := by cases h; rfl
    subst this
    simp at hs
  | cons p ps ih =>
    intro toks hok h s hs
    rw [gatherParts] at h
    cases hpp : processPart p with
    | error e => rw [hpp] at h; exact absurd h (by simp)
    | ok a =>
      cases hgp : gatherParts ps with
      | error e => rw [hpp, hgp] at h; exact absurd h (by simp)
      | ok b =>
        rw [hpp, hgp] at h
        have : toks = a ++ b := by cases h; rfl
        subst this
        rcases List.mem_append.mp hs with hm | hm
        · exact processPart_good (hok p (by simp)) hpp s hm
        · exact ih (fun x hx => hok x (by simp [hx])) hgp s hm

theorem gatherBlobs_good {bs : List Str} :
    ∀ {toks : List Str}, (∀ b ∈ bs, BlobShape b) →
      gatherBlobs bs = .ok toks →
      ∀ s ∈ toks, s ≠ [] ∧ ∀ c ∈ s, isDig c = true := by
  induction bs with
  | nil =>
    intro toks _ h s hs
    have : toks = [] := by cases h; rfl
    subst this
    simp at hs
  | cons b bs ih =>
    intro toks hok h s hs
    rw [gatherBlobs] at h
    cases hgp : gatherParts (pyCommaSplit b) with
    | error e => rw [hgp] at h; exact absurd h (by simp)
    | ok a =>
      cases hgb : gatherBlobs bs with
      | error e => rw [hgp, hgb] at h; exact absurd h (by simp)
      | ok rest =>
        rw [hgp, hgb] at h
        have : toks = a ++ rest := by cases h; rfl
        subst this
        rcases List.mem_append.mp hs with hm | hm
        · exact gatherParts_good (blob_parts_ok (hok b (by simp))) hgp s hm
        · exact ih (fun x hx => hok x (by simp [hx])) hgb s hm

/-!
## The master lemma about `extract_ieee`'s successful output
-/

theorem keyNatLe_total (a b : Str) :
    keyNatLe a b = true ∨ keyNatLe b a = true := by
  unfold keyNatLe
  rcases Nat.le_total (digitsVal a) (digitsVal b) with h | h
  · exact Or.inl (by simp [h])
  · exact Or.inr (by simp [h])

theorem keyNatLe_trans (a b c : Str) (h1 : keyNatLe a b = true)
    (h2 : keyNatLe b c = true) : keyNatLe a c = true := by
  unfold keyNatLe at *
  simp only [decide_eq_true_eq] at *
  omega

theorem extract_ieee_ok {text : Str} {out : List Str}
    (h : extract_ieee text = .ok out) :
    ∃ toks : List Str, out = toks.map wrapBracket ∧ toks.Nodup ∧
      toks.Pairwise (fun a b => digitsVal a ≤ digitsVal b) ∧
      ∀ s ∈ toks, s ≠ [] ∧ ∀ c ∈ s, isDig c = true := by
  unfold extract_ieee at h
  cases hgb : gatherBlobs (ieeeBlobs text) with
  | error e => rw [hgb] at h; exact absurd h (by simp)
  | ok nums =>
    rw [hgb] at h
    have hnums : ∀ s ∈ nums, s ≠ [] ∧ ∀ c ∈ s, isDig c = true :=
      gatherBlobs_good (fun b hb => ieeeGo_blobs _ _ b hb) hgb
    have huniq : ∀ s ∈ dedupFirst nums, s ≠ [] ∧ ∀ c ∈ s, isDig c = true :=
      fun s hs => hnums s (dedupFirstGo_mem hs).2
    have hall : (dedupFirst nums).all pyIsDigit = true := by
      rw [List.all_eq_true]
      intro s hs
      obtain ⟨h1, h2⟩ := huniq s hs
      unfold pyIsDigit
      rw [List.all_eq_true.mpr h2]
      cases s with
      | nil => exact absurd rfl h1
      | cons a r => simp
    unfold pySortedSet at h
    simp only [hall, if_true] at h
    have hout : out = (sortBy keyNatLe (dedupFirst nums)).map wrapBracket := by
      cases h; rfl
    refine ⟨sortBy keyNatLe (dedupFirst nums), hout, ?_, ?_, ?_⟩
    · exact ((sortBy_perm _ _).nodup_iff).mpr (dedupFirstGo_nodup nums [])
    · refine List.Pairwise.imp ?_
        (sortBy_pairwise keyNatLe_total keyNatLe_trans (dedupFirst nums))
      intro a b hab
      unfold keyNatLe at hab
      exact of_decide_eq_true hab
    · intro s hs
      exact huniq s ((sortBy_perm _ _).mem_iff.mp hs)

/-!
## The narrative `and`-normalization is the identity on every match

`re.sub(r"\s+and\s+", " & ", name)` can only fire where a whitespace
character is immediately followed by the letters `a`, `n`, `d`.  The captured
names contain whitespace only before `&`, before the second name of an `&`
pair, or before `et al.` — never before an `a` — so the substitution never
fires. -/

/-- No window of four characters is whitespace followed by `a`, `n`, `d`. -/
def noWsAnd : Str → Bool
  | c1 :: c2 :: c3 :: c4 :: r =>
    (!(pyWs c1 && c2 == 'a' && c3 == 'n' && c4 == 'd')) &&
      noWsAnd (c2 :: c3 :: c4 :: r)
  | _ => true

theorem noWsAnd_tail {c : Char} {l : Str} (h : noWsAnd (c :: l) = true) :
    noWsAnd l = true := by
  match l with
  | [] => rfl
  | [_] => rfl
  | [_, _] => rfl
  | c2 :: c3 :: c4 :: r =>
    have h2 : ((!(pyWs c && c2 == 'a' && c3 == 'n' && c4 == 'd')) &&
        noWsAnd (c2 :: c3 :: c4 :: r)) = true := h
    exact (Bool.and_eq_true _ _ ▸ h2).2

theorem noWsAnd_noWs {l : Str} (h : ∀ c ∈ l, pyWs c = false) :
    noWsAnd l = true := by
  induction l with
  | nil => rfl
  | cons c1 r ih =>
    have hr := ih fun c hc => h c (by simp [hc])
    match r, hr with
    | [], _ => rfl
    | [_], _ => rfl
    | [_, _], _ => rfl
    | c2 :: c3 :: c4 :: r2, hr =>
      show ((!(pyWs c1 && c2 == 'a' && c3 == 'n' && c4 == 'd')) &&
        noWsAnd (c2 :: c3 :: c4 :: r2)) = true
      rw [h c1 (by simp), hr]
      simp

theorem noWsAnd_cons {c : Char} {l : Str} (h : noWsAnd l = true)
    (hc : pyWs c = false ∨ ∀ x, l.head? = some x → x ≠ 'a') :
    noWsAnd (c :: l) = true := by
  match l, h, hc with
  | [], _, _ => rfl
  | [_], _, _ => rfl
  | [_, _], _, _ => rfl
  | c2 :: c3 :: c4 :: r, h, hc =>
    show ((!(pyWs c && c2 == 'a' && c3 == 'n' && c4 == 'd')) &&
      noWsAnd (c2 :: c3 :: c4 :: r)) = true
    rw [h, Bool.and_true]
    rcases hc with hc | hc
    · simp [hc]
    · have : (c2 == 'a') = false := by
        cases hb : c2 == 'a'
        · rfl
        · exact absurd (eq_of_beq hb) (hc c2 rfl)
      simp [this]

theorem noWsAnd_ws_append {w x : Str} (hw : ∀ c ∈ w, pyWs c = true)
    (hx : noWsAnd x = true) (hhead : ∀ h, x.head? = some h → h ≠ 'a') :
    noWsAnd (w ++ x) = true := by
  induction w with
  | nil => exact hx
  | cons c w2 ih =>
    have ihw := ih fun d hd => hw d (by simp [hd])
    refine noWsAnd_cons ihw (Or.inr ?_)
    intro z hz
    cases w2 with
    | nil => exact hhead z hz
    | cons d w3 =>
      intro he
      have hdz : d = z := by
        rw [show (d :: w3).append x = d :: (w3 ++ x) from rfl,
          List.head?_cons] at hz
        exact Option.some.inj hz
      have hd := hw d (by simp)
      rw [hdz, he] at hd
      exact absurd hd (by decide)

theorem noWsAnd_noWs_append {a x : Str} (ha : ∀ c ∈ a, pyWs c = false)
    (hx : noWsAnd x = true) : noWsAnd (a ++ x) = true := by
  induction a with
  | nil => exact hx
  | cons c a2 ih =>
    exact noWsAnd_cons (ih fun d hd => ha d (by simp [hd]))
      (Or.inl (ha c (by simp)))

theorem andTry_break {l rest : Str} (h : andTry l = some rest) :
    ∃ w r2, l = w ++ 'a' :: 'n' :: 'd' :: r2 ∧ w ≠ [] ∧
      ∀ c ∈ w, pyWs c = true := by
  unfold andTry at h
  by_cases he : (l.takeWhile pyWs).isEmpty = true
  · rw [if_pos he] at h; exact absurd h (by simp)
  · rw [if_neg he] at h
    split at h
    · next r2 heq =>
      refine ⟨l.takeWhile pyWs, r2, ?_,
        isEmpty_false_ne_nil (Bool.not_eq_true _ ▸ he),
        fun c hc => mem_takeWhile_prop hc⟩
      rw [← heq, List.takeWhile_append_dropWhile]
    · exact absurd h (by simp)

theorem noWsAnd_ws_and_false {w y : Str} (hne : w ≠ [])
    (hw : ∀ c ∈ w, pyWs c = true) :
    noWsAnd (w ++ 'a' :: 'n' :: 'd' :: y) = false := by
  induction w with
  | nil => exact absurd rfl hne
  | cons c w2 ih =>
    by_cases hw2 : w2 = []
    · subst hw2
      show ((!(pyWs c && 'a' == 'a' && 'n' == 'n' && 'd' == 'd')) &&
        noWsAnd ('a' :: 'n' :: 'd' :: y)) = false
      rw [hw c (by simp)]
      simp
    · have hf := ih hw2 fun d hd => hw d (by simp [hd])
      cases hval : noWsAnd ((c :: w2) ++ 'a' :: 'n' :: 'd' :: y) with
      | false => rfl
      | true =>
        rw [List.cons_append] at hval
        rw [noWsAnd_tail hval] at hf
        exact absurd hf (by simp)

theorem andTry_none_of_noWsAnd {l : Str} (h : noWsAnd l = true) :
    andTry l = none := by
  cases ha : andTry l with
  | none => rfl
  | some rest =>
    obtain ⟨w, r2, he, hne, hw⟩ := andTry_break ha
    rw [he, noWsAnd_ws_and_false hne hw] at h
    exact absurd h (by simp)

theorem andGo_id : ∀ (f : Nat) (l : Str), noWsAnd l = true → andGo f l = l := by
  intro f
  induction f with
  | zero => intro l _; rfl
  | succ f ih =>
    intro l h
    cases l with
    | nil => rfl
    | cons c r =>
      rw [andGo, andTry_none_of_noWsAnd h, ih r (noWsAnd_tail h)]

theorem andSub_id {l : Str} (h : noWsAnd l = true) : andSub l = l :=
  andGo_id _ _ h

/-!
## The captured narrative names never contain a `\s+and\s+` window
-/

theorem isUpperAZ_not_ws {c : Char} (h : isUpperAZ c = true) :
    pyWs c = false := by
  cases hw : pyWs c
  · rfl
  · rcases pyWs_cases hw with he | he | he | he | he | he <;>
      rw [he] at h <;> exact absurd h (by decide)

theorem isNameChar_not_ws {c : Char} (h : isNameChar c = true) :
    pyWs c = false := by
  cases hw : pyWs c
  · rfl
  · rcases pyWs_cases hw with he | he | he | he | he | he <;>
      rw [he] at h <;> exact absurd h (by decide)

theorem isUpperAZ_ne_a {c : Char} (h : isUpperAZ c = true) : c ≠ 'a' := by
  intro he
  rw [he] at h
  exact absurd h (by decide)

theorem nameRun_shape {l n rest : Str} (h : nameRun l = some (n, rest)) :
    (∀ c ∈ n, pyWs c = false) ∧
      ∀ x, n.head? = some x → isUpperAZ x = true := by
  unfold nameRun at h
  split at h
  · next c r =>
    by_cases hu : isUpperAZ c = true
    · rw [if_pos hu] at h
      by_cases he : (r.takeWhile isNameChar).isEmpty = true
      · rw [if_pos he] at h; exact absurd h (by simp)
      · rw [if_neg he] at h
        simp only [Option.some.injEq, Prod.mk.injEq] at h
        have hn : n = c :: r.takeWhile isNameChar := h.1.symm
        subst hn
        constructor
        · intro x hx
          rcases List.mem_cons.mp hx with hx | hx
          · exact hx ▸ isUpperAZ_not_ws hu
          · exact isNameChar_not_ws (mem_takeWhile_prop hx)
        · intro x hx
          simp only [List.head?_cons, Option.some.injEq] at hx
          exact hx ▸ hu
    · rw [if_neg hu] at h; exact absurd h (by simp)
  · exact absurd h (by simp)

theorem tryNarrAmp_name {n1 r1 n y rest : Str}
    (hn1 : ∀ c ∈ n1, pyWs c = false)
    (h : tryNarrAmp n1 r1 = some (n, y, rest)) : noWsAnd n = true := by
  unfold tryNarrAmp at h
  split at h
  · next r2 heq =>
    split at h
    · next n2 r3 hnr =>
      split at h
      · next y2 rest2 hpy =>
        simp only [Option.some.injEq, Prod.mk.injEq] at h
        obtain ⟨hshape, hhd⟩ := nameRun_shape hnr
        have hinner : noWsAnd ('&' :: (r2.takeWhile pyWs ++ n2)) = true := by
          refine noWsAnd_cons ?_ (Or.inl (by decide))
          refine noWsAnd_ws_append (fun c hc => mem_takeWhile_prop hc)
            (noWsAnd_noWs hshape) ?_
          intro z hz
          exact isUpperAZ_ne_a (hhd z hz)
        have houter : noWsAnd (r1.takeWhile pyWs ++
            '&' :: (r2.takeWhile pyWs ++ n2)) = true := by
          refine noWsAnd_ws_append (fun c hc => mem_takeWhile_prop hc)
            hinner ?_
          intro z hz
          simp only [List.head?_cons, Option.some.injEq] at hz
          rw [← hz]
          decide
        rw [← h.1, List.append_assoc]
        exact noWsAnd_noWs_append hn1 houter
      · exact absurd h (by simp)
    · exact absurd h (by simp)
  · exact absurd h (by simp)

theorem tryNarrEtal_name {n1 r1 n y rest : Str}
    (hn1 : ∀ c ∈ n1, pyWs c = false)
    (h : tryNarrEtal n1 r1 = some (n, y, rest)) : noWsAnd n = true := by
  unfold tryNarrEtal at h
  by_cases he : (r1.takeWhile pyWs).isEmpty = true
  · rw [if_pos he] at h; exact absurd h (by simp)
  · rw [if_neg he] at h
    split at h
    · next r2 heq =>
      split at h
      · next y2 rest2 hpy =>
        simp only [Option.some.injEq, Prod.mk.injEq] at h
        have hetal : noWsAnd (['e', 't', ' ', 'a', 'l', '.'] : Str) = true := by
          decide
        have hmid : noWsAnd (r1.takeWhile pyWs ++
            (['e', 't', ' ', 'a', 'l', '.'] : Str)) = true := by
          refine noWsAnd_ws_append (fun c hc => mem_takeWhile_prop hc)
            hetal ?_
          intro z hz
          simp only [List.head?_cons, Option.some.injEq] at hz
          rw [← hz]
          decide
        have hfull := noWsAnd_noWs_append hn1 hmid
        rw [← List.append_assoc] at hfull
        rw [← h.1]
        exact hfull
      · exact absurd h (by simp)
    · exact absurd h (by simp)

theorem tryNarrTail_name {n1 r1 n y rest : Str}
    (hn1 : ∀ c ∈ n1, pyWs c = false)
    (h : tryNarrTail n1 r1 = some (n, y, rest)) : noWsAnd n = true := by
  unfold tryNarrTail at h
  split at h
  · next z hamp =>
    obtain ⟨za, zb, zc⟩ := z
    have hza : za = n := by cases h; rfl
    exact hza ▸ tryNarrAmp_name hn1 hamp
  · next hamp =>
    split at h
    · next y2 rest2 hpy =>
      have hn : n1 = n := by cases h; rfl
      exact hn ▸ noWsAnd_noWs hn1
    · exact tryNarrEtal_name hn1 h

theorem tryNarr_name {l n y rest : Str}
    (h : tryNarr l = some (n, y, rest)) : noWsAnd n = true := by
  unfold tryNarr at h
  split at h
  · exact absurd h (by simp)
  · next n1 r1 hnr =>
    exact tryNarrTail_name (nameRun_shape hnr).1 h

theorem narrGo_names : ∀ (f : Nat) (l n y : Str),
    (n, y) ∈ narrGo f l → noWsAnd n = true := by
  intro f
  induction f with
  | zero => intro l n y h; simp [narrGo] at h
  | succ f ih =>
    intro l n y h
    cases l with
    | nil => simp [narrGo] at h
    | cons c r =>
      rw [narrGo] at h
      cases htn : tryNarr (c :: r) with
      | none => rw [htn] at h; exact ih r n y h
      | some z =>
        obtain ⟨n1, y1, rest1⟩ := z
        rw [htn] at h
        rcases List.mem_cons.mp h with he | ht
        · have : n = n1 ∧ y = y1 := by
            constructor <;> cases he <;> rfl
          exact this.1 ▸ tryNarr_name htn
        · exact ih rest1 n y ht

theorem listMapCongr {f g : Str × Str → Str} {l : List (Str × Str)}
    (h : ∀ a ∈ l, f a = g a) : l.map f = l.map g := by
  induction l with
  | nil => rfl
  | cons a r ih =>
    simp only [List.map_cons]
    rw [h a (by simp), ih fun x hx => h x (by simp [hx])]

/-- The `and → &` normalization never changes a captured narrative name. -/
theorem extract_apa_narrative_raw (text : Str) :
    extract_apa_narrative text =
      (narrativeMatches text).map fun p => p.1 ++ ',' :: ' ' :: p.2 := by
  unfold extract_apa_narrative
  refine listMapCongr ?_
  intro p hp
  rw [andSub_id (narrGo_names _ _ p.1 p.2 (by simpa using hp))]

theorem wrapBracket_inj : Function.Injective wrapBracket := by
  intro a b h
  unfold wrapBracket at h
  injection h with _ h2
  exact List.append_cancel_right h2

/-- Decomposition of `extract_citations_from_text` on success. -/
theorem extract_ok_table {text : Str} {tbl : CitationTable}
    (h : extract_citations_from_text text = .ok tbl) :
    ∃ ie, extract_ieee text = .ok ie ∧
      tbl = ⟨dedupe (extract_apa_parenthetical text),
        dedupe (extract_apa_narrative text), dedupe ie⟩ := by
  unfold extract_citations_from_text at h
  cases hie : extract_ieee text with
  | error e => rw [hie] at h; exact absurd h (by simp)
  | ok ie =>
    rw [hie] at h
    exact ⟨ie, rfl, by cases h; rfl⟩

/-!
## The claims
-/

/-- C1, counterexample.  The claim says `Count` is `1` in every row for every
input.  For the input `"Smith (2020) (Smith, 2020)"` the string
`"Smith, 2020"` is recognized by both the parenthetical and the narrative
family, and the `Counter` is keyed on the citation string alone, so both of
its rows carry `Count = 2`. -/
theorem c1_count_not_one :
    extractRows "Smith (2020) (Smith, 2020)".toList =
      .ok [("APA parenthetical".toList, "2020".toList, 1),
           ("APA parenthetical".toList, "Smith, 2020".toList, 2),
           ("APA narrative".toList, "Smith, 2020".toList, 2)] := by
  rfl

/-- C1, amended: in the row flattening, each row's `Count` equals the number
of families whose (deduplicated) sequence contains that row's citation
string; it is at least `1`, and hence equals `1` exactly when no other family
emitted the same string. -/
theorem c1_count_is_family_multiplicity :
    ∀ (text : Str) (tbl : CitationTable),
      extract_citations_from_text text = .ok tbl →
      ∀ r ∈ rowsOf tbl, r.2.2 = famCount tbl r.2.1 ∧ 1 ≤ r.2.2 := by
  intro text tbl h
  obtain ⟨ie, -, htbl⟩ := extract_ok_table h
  subst htbl
  exact rowsOf_count _ (dedupeGo_nodup _ []) (dedupeGo_nodup _ [])
    (dedupeGo_nodup _ [])

theorem c1_count_witness :
    (("APA narrative".toList, "Smith, 2020".toList, (2 : Nat)) :
        Str × Str × Nat).2.2 =
      famCount ⟨["2020".toList, "Smith, 2020".toList],
        ["Smith, 2020".toList], []⟩ "Smith, 2020".toList ∧
    1 ≤ (("APA narrative".toList, "Smith, 2020".toList, (2 : Nat)) :
        Str × Str × Nat).2.2 :=
  c1_count_is_family_multiplicity "Smith (2020) (Smith, 2020)".toList
    ⟨["2020".toList, "Smith, 2020".toList], ["Smith, 2020".toList], []⟩
    (by rfl) _ (by decide)

/-- C2, counterexample.  The claim says no emitted citation string starts or
ends with a character from `{space, ., ;, ,}`.  The final parenthetical
cleanup strips only `" ,;"` — not the dot — so the input `"(p. 12. 2020)"`
emits `". 2020"`, which starts with `'.'`. -/
theorem c2_leading_dot :
    extract_citations_from_text "(p. 12. 2020)".toList =
      .ok ⟨[". 2020".toList], [], []⟩ ∧
    (". 2020".toList).head? = some '.' := ⟨by rfl, by rfl⟩

/-- C2, amended: every citation string in the table is non-empty and has no
leading or trailing whitespace (the aggregator's `dedupe` strips whitespace
and rejects empties); leading or trailing punctuation such as `'.'` can
occur. -/
theorem c2_nonempty_no_outer_ws :
    ∀ (text : Str) (tbl : CitationTable),
      extract_citations_from_text text = .ok tbl →
      (∀ s ∈ tbl.APA_parenthetical, cleanStr s) ∧
      (∀ s ∈ tbl.APA_narrative, cleanStr s) ∧
      (∀ s ∈ tbl.IEEE_numeric, cleanStr s) := by
  intro text tbl h
  obtain ⟨ie, -, htbl⟩ := extract_ok_table h
  subst htbl
  exact ⟨fun s hs => dedupe_clean hs, fun s hs => dedupe_clean hs,
    fun s hs => dedupe_clean hs⟩

theorem c2_nonempty_witness : cleanStr (". 2020".toList) :=
  (c2_nonempty_no_outer_ws "(p. 12. 2020)".toList
    ⟨[". 2020".toList], [], []⟩ (by rfl)).1 _ (by simp)

/-- C3, counterexample.  The claim says the IEEE output for `"[abc]"`
contains the literal `"[abc]"`.  The bracket-group pattern requires the
content to start with a digit, so `"[abc]"` is not matched at all and the
IEEE family output is empty. -/
theorem c3_abc_not_matched :
    extract_citations_from_text "[abc]".toList = .ok ⟨[], [], []⟩ := by
  rfl

/-- C3, amended: `"[abc]"` is never matched (its IEEE output is empty), and
the pass-through branch of the part loop can only ever emit numeric tokens:
every string the IEEE extractor outputs is `"[t]"` for a non-empty all-digit
token `t`. -/
theorem c3_ieee_tokens_numeric :
    extract_ieee "[abc]".toList = .ok [] ∧
    ∀ (text : Str) (out : List Str), extract_ieee text = .ok out →
      ∀ s ∈ out, ∃ t, s = wrapBracket t ∧ t ≠ [] ∧
        ∀ c ∈ t, isDig c = true := by
  refine ⟨by rfl, ?_⟩
  intro text out h s hs
  obtain ⟨toks, hmap, -, -, hgood⟩ := extract_ieee_ok h
  rw [hmap] at hs
  obtain ⟨t, ht, he⟩ := List.mem_map.mp hs
  exact ⟨t, he.symm, (hgood t ht).1, (hgood t ht).2⟩

theorem c3_tokens_witness :
    ∃ t, "[7]".toList = wrapBracket t ∧ t ≠ [] ∧
      ∀ c ∈ t, isDig c = true :=
  c3_ieee_tokens_numeric.2 "[5-2,7]".toList ["[7]".toList] (by rfl)
    "[7]".toList (by simp)

/-- C4.  The claim (and the spec's §7) say the aggregation is total and never
raises.  The code is not: for the input `"[1-2-3]"` the bracket group
matches, the part `"1-2-3"` splits on hyphens into three pieces, and the
two-variable unpacking `a,b = re.split(r"[\-–]", p)` (app.py line 70, outside
the `try`) raises an uncaught `ValueError`.  The empty-input half of the
claim does hold. -/
theorem c4_raises_on_triple_range :
    extract_citations_from_text "[1-2-3]".toList = .error () ∧
    extract_citations_from_text "".toList = .ok ⟨[], [], []⟩ :=
  ⟨by rfl, by rfl⟩

/-- C5.  The IEEE family output is globally deduplicated across all bracket
groups and sorted ascending by numeric value, and the example
`"[1,3] and [2-4]"` yields `["[1]","[2]","[3]","[4]"]`. -/
theorem c5_ieee_sorted_dedup :
    (∀ (text : Str) (out : List Str), extract_ieee text = .ok out →
      ∃ toks : List Str, out = toks.map wrapBracket ∧ out.Nodup ∧
        toks.Pairwise fun a b => digitsVal a ≤ digitsVal b) ∧
    extract_ieee "[1,3] and [2-4]".toList =
      .ok ["[1]".toList, "[2]".toList, "[3]".toList, "[4]".toList] := by
  refine ⟨?_, by rfl⟩
  intro text out h
  obtain ⟨toks, hmap, hnd, hpw, -⟩ := extract_ieee_ok h
  refine ⟨toks, hmap, ?_, hpw⟩
  rw [hmap]
  exact hnd.map wrapBracket_inj

theorem c5_witness :
    ∃ toks : List Str,
      ["[1]".toList, "[2]".toList, "[3]".toList, "[4]".toList] =
        toks.map wrapBracket ∧
      (["[1]".toList, "[2]".toList, "[3]".toList, "[4]".toList] :
        List Str).Nodup ∧
      toks.Pairwise fun a b => digitsVal a ≤ digitsVal b :=
  c5_ieee_sorted_dedup.1 "[1,3] and [2-4]".toList
    ["[1]".toList, "[2]".toList, "[3]".toList, "[4]".toList] (by rfl)

/-- C6, counterexample.  The claim says every listed connector phrase —
`see also` among them — is stripped in full, so that
`"(see also Smith, 2020)"` emits `"Smith, 2020"`.  The regex alternation is
ordered and `see` precedes `see also`, so only `"see "` is stripped and the
emitted candidate is `"also Smith, 2020"`. -/
theorem c6_see_also_shadowed :
    extract_apa_parenthetical "(see also Smith, 2020)".toList =
      ["also Smith, 2020".toList] := by
  rfl

/-- C6, amended: each connector phrase alternative is stripped (with its
optional `:`/`,` and surrounding whitespace), but the alternatives are tried
in the pattern's order, so `see also` is shadowed by `see`: for a piece
starting `see also` only `see` is removed, and
`"see also Smith, 2020"` cleans to `"also Smith, 2020"`. -/
theorem c6_connector_phrases :
    _clean_piece "see Smith, 2020".toList = "Smith, 2020".toList ∧
    _clean_piece "e.g., Smith, 2020".toList = "Smith, 2020".toList ∧
    _clean_piece "e.g Smith, 2020".toList = "Smith, 2020".toList ∧
    _clean_piece "i.e., Smith, 2020".toList = "Smith, 2020".toList ∧
    _clean_piece "cf. Smith, 2020".toList = "Smith, 2020".toList ∧
    _clean_piece "for example: Smith, 2020".toList = "Smith, 2020".toList ∧
    _clean_piece "see also Smith, 2020".toList = "also Smith, 2020".toList :=
  ⟨rfl, rfl, rfl, rfl, rfl, rfl, rfl⟩

/-- C7.  A hyphen/en-dash range part whose bounds are reversed or whose sides
fail to parse is silently discarded without error and without aborting the
rest of the group: `"[5-2]"` yields nothing, and in `"[5-2,7]"` the token `7`
is still emitted. -/
theorem c7_malformed_range_dropped :
    (∀ (p a b : Str), p.any isHyph = true → splitOnHyph p = [a, b] →
      (pyInt (pyStrip a) = none ∨ pyInt (pyStrip b) = none ∨
        ∀ x y, pyInt (pyStrip a) = some x → pyInt (pyStrip b) = some y →
          y < x) →
      processPart p = .ok []) ∧
    extract_ieee "[5-2]".toList = .ok [] ∧
    extract_ieee "[5-2,7]".toList = .ok ["[7]".toList] := by
  refine ⟨?_, by rfl, by rfl⟩
  intro p a b hh hsp hbad
  unfold processPart
  rw [if_pos hh, hsp]
  show Except.ok (processRange a b) = Except.ok []
  unfold processRange
  cases hx : pyInt (pyStrip a) with
  | none => rfl
  | some x =>
    cases hy : pyInt (pyStrip b) with
    | none => rfl
    | some y =>
      rcases hbad with hbad | hbad | hbad
      · rw [hx] at hbad; exact absurd hbad (by simp)
      · rw [hy] at hbad; exact absurd hbad (by simp)
      · have hlt := hbad x y hx hy
        show Except.ok (if x ≤ y then rangeToks x y else []) = Except.ok []
        rw [if_neg (by omega)]

theorem c7_witness : processPart "5-2".toList = .ok [] :=
  c7_malformed_range_dropped.1 "5-2".toList "5".toList "2".toList
    (by rfl) (by rfl)
    (Or.inr (Or.inr (fun x y hx hy => by
      have hx2 : (5 : Nat) = x := Option.some.inj hx
      have hy2 : (2 : Nat) = y := Option.some.inj hy
      omega)))

/-- C8.  For the input
`"The results (see Smith and Lee, 2020, pp. 12-15) were notable."` the
APA_parenthetical family contains `"Smith & Lee, 2020"`: the `see` connector
is stripped, the page reference `", pp. 12-15"` removed, the text after the
year truncated, and `and` normalized to `&`. -/
theorem c8_parenthetical_example :
    extract_citations_from_text
        "The results (see Smith and Lee, 2020, pp. 12-15) were notable.".toList =
      .ok ⟨["Smith & Lee, 2020".toList], [], []⟩ ∧
    "Smith & Lee, 2020".toList ∈ extract_apa_parenthetical
      "The results (see Smith and Lee, 2020, pp. 12-15) were notable.".toList :=
  ⟨by rfl, by decide⟩

/-- C9, counterexample.  The claim says each family's sequence lists its
strings in the order of their first occurrence in the candidate sequence.
The aggregator deduplicates the *stripped* candidates: for the input below
the candidates are `["\n. 2020", "Zz, 2020", ". 2020"]`, and the emitted
sequence is `[". 2020", "Zz, 2020"]` although the string `". 2020"` first
occurs at index 2 of the candidates, after `"Zz, 2020"` at index 1. -/
theorem c9_order_not_raw_first_occurrence :
    extract_apa_parenthetical
        "(p. 5\n. 2020; Zz, 2020; p. 12. 2020)".toList =
      ["\n. 2020".toList, "Zz, 2020".toList, ". 2020".toList] ∧
    extract_citations_from_text
        "(p. 5\n. 2020; Zz, 2020; p. 12. 2020)".toList =
      .ok ⟨[". 2020".toList, "Zz, 2020".toList], [], []⟩ ∧
    firstIdx ". 2020".toList
      (extract_apa_parenthetical
        "(p. 5\n. 2020; Zz, 2020; p. 12. 2020)".toList) = 2 ∧
    firstIdx "Zz, 2020".toList
      (extract_apa_parenthetical
        "(p. 5\n. 2020; Zz, 2020; p. 12. 2020)".toList) = 1 :=
  ⟨by rfl, by rfl, by rfl, by rfl⟩

/-- C9, amended: each family's sequence is duplicate-free, contains no empty
string, and lists its strings in the order of their first occurrence in the
whitespace-stripped candidate sequence (the aggregator strips each candidate
before deduplicating). -/
theorem c9_dedup_props :
    ∀ (text : Str) (tbl : CitationTable),
      extract_citations_from_text text = .ok tbl →
      dedupProps (extract_apa_parenthetical text) tbl.APA_parenthetical ∧
      dedupProps (extract_apa_narrative text) tbl.APA_narrative ∧
      ∀ ie, extract_ieee text = .ok ie →
        dedupProps ie tbl.IEEE_numeric := by
  intro text tbl h
  obtain ⟨ie0, hie, htbl⟩ := extract_ok_table h
  subst htbl
  refine ⟨dedupe_props _, dedupe_props _, ?_⟩
  intro ie hie2
  rw [hie] at hie2
  cases hie2
  exact dedupe_props _

theorem c9_dedup_witness :
    dedupProps
      (extract_apa_parenthetical
        "(p. 5\n. 2020; Zz, 2020; p. 12. 2020)".toList)
      [". 2020".toList, "Zz, 2020".toList] ∧
    dedupProps
      (extract_apa_narrative
        "(p. 5\n. 2020; Zz, 2020; p. 12. 2020)".toList) [] ∧
    dedupProps [] [] := by
  have h := c9_dedup_props "(p. 5\n. 2020; Zz, 2020; p. 12. 2020)".toList
    ⟨[". 2020".toList, "Zz, 2020".toList], [], []⟩ (by rfl)
  exact ⟨h.1, h.2.1, h.2.2 [] (by rfl)⟩

/-- C10.  The narrative name grammar captures a single capitalized token, two
joined by `&`, or one followed by `et al.` — never the word `and` after
whitespace — so the `and → &` normalization is the identity on every match,
and `"Smith and Lee (2020)"` yields exactly `["Lee, 2020"]` (not
`"Smith & Lee, 2020"`). -/
theorem c10_narrative_and_identity :
    (∀ text : Str, extract_apa_narrative text =
      (narrativeMatches text).map fun p => p.1 ++ ',' :: ' ' :: p.2) ∧
    extract_apa_narrative "Smith and Lee (2020)".toList =
      ["Lee, 2020".toList] :=
  ⟨extract_apa_narrative_raw, by rfl⟩

theorem c10_witness :
    extract_apa_narrative "Jones et al. (2019) argue".toList =
      (narrativeMatches "Jones et al. (2019) argue".toList).map
        fun p => p.1 ++ ',' :: ' ' :: p.2 :=
  c10_narrative_and_identity.1 "Jones et al. (2019) argue".toList

end CitEx
